import Mathlib

/-!
# Donut engine: `ThreadPool` and `Material::FillConstantBuffer`

A shallow embedding of `src/src/engine/ThreadPool.cpp` (with the declarations of
`src/include/donut/engine/ThreadPool.h`) and of the part of
`src/src/engine/Material.cpp` that fills the alpha fields of the constant buffer.

## How the thread pool is modelled

The thread pool is a labelled transition system.  Every statement of `AddTask`,
`WaitForTasks`, `ThreadProc` and `~ThreadPool` that touches a member shared between
threads is one atomic step (`Action`); a schedule is a list of actions and `run` executes
it, so that "every reachable state" is "the result of `run` on any schedule".  The atomics
are used with their default sequentially consistent ordering, which is what an
interleaving of steps describes.

* The members `m_threads`, `m_tasks`, `m_mutex`, `m_terminate`, `m_pendingTasks` are fields
  of the state.  `m_threads` holds the control point of each worker thread.
* `m_mutex` records its holder.  A thread is inside `AddTask` exactly while it holds the
  lock, so the holder also records the progress of that call.
* `m_pendingTasks` is a `std::atomic<int>`: its increments and decrements are computed in
  32-bit two's complement (`wrapInt`).
* `m_forward` has no field.  A worker blocked in `wait` may wake up at any time, because the
  standard permits spurious wake-ups; `notify_one` and `notify_all` only make such a
  wake-up happen and are steps that change no data.
* A task is an opaque identity, and a task pointer is such an identity or null: `AddTask`
  takes any `std::shared_ptr`, a null one included.  The end of a `Run` is an action that
  says whether it returned or raised.
* `AddTask` is called by a client thread or by a task from inside its `Run` (on the worker
  thread that runs it); `WaitForTasks` is called by a client thread.
* The remaining fields record history (which entries were pushed, popped, started,
  finished and discarded, how often the counter was changed and how high it stood).  No
  step reads them, except that the length of the push history numbers the next queue entry.
* The constructor is one step: thread creation and memory allocation are taken to succeed.
-/

namespace Donut

/-! ## Data model -/

/-- The value a C++ `int` (32 bit, two's complement) holds after an arithmetic result `x`;
`std::atomic<int>` increments and decrements wrap around in this way. -/
def wrapInt (x : Int) : Int :=
  (x + 2147483648) % 4294967296 - 2147483648

/-- Identity of a task object (the target of a `std::shared_ptr<ThreadPoolTask>`). -/
abbrev TaskId := Nat

/-- A `std::shared_ptr<ThreadPoolTask>`: `none` is the null pointer. -/
abbrev TaskPtr := Option TaskId

/-- One element of `m_tasks`: the task pointer, tagged with the number of pushes that
preceded its own, so that two submissions of the same pointer stay distinguishable. -/
structure Entry where
  seq : Nat
  task : TaskPtr
deriving DecidableEq, Repr

/-- The thread that calls `AddTask`: a client thread, or worker `w` while it executes the
`Run` of a task that makes the call. -/
inductive Caller where
  | client (p : Nat)
  | task (w : Nat)
deriving DecidableEq, Repr

/-- Progress of a thread inside `AddTask`: after the lock was taken, after
`m_tasks.push`, after `++m_pendingTasks`, after `m_forward.notify_one`. -/
inductive AddPC where
  | locked
  | pushed
  | counted
  | notified
deriving DecidableEq, Repr

/-- Holder of `m_mutex`: a thread that is inside `AddTask` (the lock is its first statement
and is released when the function returns), or a worker inside the locked block of
`ThreadProc`. -/
inductive Owner where
  | producer (c : Caller) (task : TaskPtr) (pc : AddPC)
  | worker (w : Nat)
deriving DecidableEq, Repr

/-- Control point of one worker thread in `ThreadProc`. -/
inductive WorkerPC where
  /-- about to evaluate `while(!m_terminate.load())` -/
  | loopHead
  /-- about to lock `m_mutex` (first entry, or re-locking after a wake-up) -/
  | acquiring
  /-- holds the lock, about to evaluate the predicate of `m_forward.wait` -/
  | checking
  /-- blocked inside `m_forward.wait`, lock released -/
  | waiting
  /-- holds the lock, `wait` has returned, about to evaluate `if (!m_tasks.empty())` -/
  | passed
  /-- holds the lock, after the `if`; `popped` is the entry that was taken out of the queue,
  if any: the local variable `task` is its pointer, and is null when nothing was taken -/
  | popped (popped : Option Entry)
  /-- lock released, `task` is non-null and `task->Run()` has been called -/
  | running (e : Entry)
  /-- `Run` has returned or its exception was caught; about to do `--m_pendingTasks` -/
  | afterRun
  /-- left the `while` loop: the thread function has returned -/
  | stopped
deriving DecidableEq, Repr

/-- Control point of the thread that executes `~ThreadPool`. -/
inductive DtorPC where
  /-- the destructor has not been called -/
  | alive
  /-- inside the `WaitForTasks()` call of the destructor -/
  | draining
  /-- `WaitForTasks()` has returned, about to do `m_terminate.store(true)` -/
  | drained
  /-- the flag is stored, about to do `m_forward.notify_all()` -/
  | flagged
  /-- in the join loop, the first `k` threads are joined -/
  | joining (k : Nat)
  /-- the destructor has returned -/
  | done
deriving DecidableEq, Repr

/-- State of one `ThreadPool` object together with the control points of its threads. -/
structure ThreadPool where
  /-- `m_threads`, one control point per worker thread -/
  m_threads : List WorkerPC
  /-- `m_tasks`, head of the list is `front()` -/
  m_tasks : List Entry
  /-- `m_mutex`, `none` when unlocked -/
  m_mutex : Option Owner
  /-- `m_terminate` -/
  m_terminate : Bool
  /-- `m_pendingTasks` -/
  m_pendingTasks : Int
  /-- progress of the destructor -/
  dtor : DtorPC
  /-- history: every entry pushed by `AddTask`, in push order -/
  enqueued : List Entry
  /-- history: every entry popped by a worker, with the worker, in pop order -/
  dequeued : List (Nat × Entry)
  /-- history: every call of `task->Run()`, with the worker, in call order -/
  started : List (Nat × Entry)
  /-- history: every `Run` that ended, with the worker and whether it returned normally
  (`true`) or raised (`false`), in order of ending -/
  finished : List (Nat × Entry × Bool)
  /-- history: every popped entry whose pointer was null, so that `if (task)` skipped both
  `Run` and `--m_pendingTasks`, with the worker -/
  discarded : List (Nat × Entry)
  /-- history: how many times `++m_pendingTasks` was executed -/
  increments : Nat
  /-- history: how many times `--m_pendingTasks` was executed -/
  decrements : Nat
  /-- history: the largest number by which the increments have ever exceeded the
  decrements, that is, the most submissions that were pending at one time -/
  peak : Nat
deriving DecidableEq, Repr

/-- One atomic step of one thread. -/
inductive Action where
  /-- `AddTask`: `std::unique_lock<std::mutex> lock(m_mutex)` by caller `c` for `task` -/
  | addLock (c : Caller) (task : TaskPtr)
  /-- `AddTask`: `m_tasks.push(task)` -/
  | addPush (c : Caller)
  /-- `AddTask`: `++m_pendingTasks` -/
  | addCount (c : Caller)
  /-- `AddTask`: `m_forward.notify_one()` -/
  | addNotify (c : Caller)
  /-- `AddTask`: the lock goes out of scope, the call returns -/
  | addUnlock (c : Caller)
  /-- `WaitForTasks` called by client thread `p`: the load saw a non-zero value, `yield` -/
  | waitSpin (p : Nat)
  /-- `WaitForTasks` called by client thread `p`: the load saw `0`, the call returns -/
  | waitReturn (p : Nat)
  /-- `~ThreadPool` is entered and calls `WaitForTasks()` -/
  | dtorEnter
  /-- `~ThreadPool`: the load in `WaitForTasks` saw a non-zero value -/
  | dtorSpin
  /-- `~ThreadPool`: the load in `WaitForTasks` saw `0` -/
  | dtorDrained
  /-- `~ThreadPool`: `m_terminate.store(true)` -/
  | dtorStore
  /-- `~ThreadPool`: `m_forward.notify_all()` -/
  | dtorNotifyAll
  /-- `~ThreadPool`: `thread.join()` of the next thread returns -/
  | dtorJoin
  /-- `~ThreadPool`: the join loop is over, the destructor returns -/
  | dtorReturn
  /-- `ThreadProc`: evaluate the loop condition -/
  | wLoop (w : Nat)
  /-- `ThreadProc`: lock `m_mutex` -/
  | wLock (w : Nat)
  /-- `ThreadProc`: evaluate the predicate of `wait`; block if it is false -/
  | wCheck (w : Nat)
  /-- `ThreadProc`: a blocked worker wakes up (notified or spuriously) -/
  | wWake (w : Nat)
  /-- `ThreadProc`: `if (!m_tasks.empty()) { task = front(); pop(); }` -/
  | wTake (w : Nat)
  /-- `ThreadProc`: the lock goes out of scope; `if (task)` calls `Run` when the pointer
  is not null and goes on to the next iteration when it is -/
  | wUnlock (w : Nat)
  /-- `ThreadProc`: `Run` ends, normally (`ok = true`) or by raising (`ok = false`) -/
  | wRun (w : Nat) (ok : Bool)
  /-- `ThreadProc`: `--m_pendingTasks` -/
  | wDec (w : Nat)
deriving DecidableEq, Repr

namespace ThreadPool

/-! ## Operations -/

/-- `ThreadPool::ThreadPool(uint32_t numThreads)`: `hw` is what
`std::thread::hardware_concurrency()` returns.  Every thread starts `ThreadProc`. -/
def create (hw : Nat) (numThreads : Nat) : ThreadPool :=
  let numThreads := if numThreads = 0 then hw else numThreads
  { m_threads := List.replicate numThreads WorkerPC.loopHead
    m_tasks := []
    m_mutex := none
    m_terminate := false
    m_pendingTasks := 0
    dtor := DtorPC.alive
    enqueued := []
    dequeued := []
    started := []
    finished := []
    discarded := []
    increments := 0
    decrements := 0
    peak := 0 }

/-- Move worker `w` to control point `pc`. -/
def setWorker (s : ThreadPool) (w : Nat) (pc : WorkerPC) : ThreadPool :=
  { s with m_threads := s.m_threads.set w pc }

/-- Caller `c` is inside `AddTask`. -/
def inAddTask (s : ThreadPool) (c : Caller) : Bool :=
  match s.m_mutex with
  | some (Owner.producer q _ _) => decide (q = c)
  | _ => false

/-- Caller `c` is at a point where it can call `AddTask`: a client thread always, a task
only while its worker is inside `Run`. -/
def canCall (s : ThreadPool) : Caller → Bool
  | Caller.client _ => true
  | Caller.task w =>
    match s.m_threads[w]? with
    | some (WorkerPC.running _) => true
    | _ => false

/-- `ThreadPool::AddTask(std::shared_ptr<ThreadPoolTask> const& task)`, one statement
at a time (the overload for `std::function` wraps its argument in a task and calls this
one).  The pointer is not examined: a null pointer is pushed and counted like any other.
`none` means that the statement is not the next one of the caller, or, for the lock, that
the mutex is taken. -/
def AddTask (s : ThreadPool) : Action → Option ThreadPool
  | Action.addLock c task =>
    match s.m_mutex with
    | none =>
      if s.canCall c then some { s with m_mutex := some (Owner.producer c task AddPC.locked) }
      else none
    | some _ => none
  | Action.addPush c =>
    match s.m_mutex with
    | some (Owner.producer q task AddPC.locked) =>
      if q = c then
        some { s with
          m_tasks := s.m_tasks ++ [Entry.mk s.enqueued.length task]
          enqueued := s.enqueued ++ [Entry.mk s.enqueued.length task]
          m_mutex := some (Owner.producer q task AddPC.pushed) }
      else none
    | _ => none
  | Action.addCount c =>
    match s.m_mutex with
    | some (Owner.producer q task AddPC.pushed) =>
      if q = c then
        some { s with
          m_pendingTasks := wrapInt (s.m_pendingTasks + 1)
          increments := s.increments + 1
          peak := max s.peak (s.increments + 1 - s.decrements)
          m_mutex := some (Owner.producer q task AddPC.counted) }
      else none
    | _ => none
  | Action.addNotify c =>
    match s.m_mutex with
    | some (Owner.producer q task AddPC.counted) =>
      if q = c then some { s with m_mutex := some (Owner.producer q task AddPC.notified) }
      else none
    | _ => none
  | Action.addUnlock c =>
    match s.m_mutex with
    | some (Owner.producer q _ AddPC.notified) =>
      if q = c then some { s with m_mutex := none } else none
    | _ => none
  | _ => none

/-- `ThreadPool::WaitForTasks()` called by client thread `p` (which is not inside
`AddTask`): one iteration of
`while(m_pendingTasks.load() != 0) std::this_thread::yield();`. -/
def WaitForTasks (s : ThreadPool) : Action → Option ThreadPool
  | Action.waitSpin p =>
    if s.inAddTask (Caller.client p) = false ∧ s.m_pendingTasks ≠ 0 then some s else none
  | Action.waitReturn p =>
    if s.inAddTask (Caller.client p) = false ∧ s.m_pendingTasks = 0 then some s else none
  | _ => none

/-- `ThreadPool::ThreadProc()`, one statement at a time, for worker `w`.  After the locked
block, `if (task)` tests the pointer: with a task, `Run` is called, and `--m_pendingTasks`
follows its end; with a null pointer (nothing was popped, or the popped pointer is null)
neither happens and the loop goes round.  A `Run` does not end while the task is inside a
call of `AddTask`. -/
def ThreadProc (s : ThreadPool) : Action → Option ThreadPool
  | Action.wLoop w =>
    match s.m_threads[w]? with
    | some WorkerPC.loopHead =>
      if s.m_terminate then some (s.setWorker w WorkerPC.stopped)
      else some (s.setWorker w WorkerPC.acquiring)
    | _ => none
  | Action.wLock w =>
    match s.m_threads[w]?, s.m_mutex with
    | some WorkerPC.acquiring, none =>
      some { s.setWorker w WorkerPC.checking with m_mutex := some (Owner.worker w) }
    | _, _ => none
  | Action.wCheck w =>
    match s.m_threads[w]? with
    | some WorkerPC.checking =>
      if !s.m_tasks.isEmpty || s.m_terminate then some (s.setWorker w WorkerPC.passed)
      else some { s.setWorker w WorkerPC.waiting with m_mutex := none }
    | _ => none
  | Action.wWake w =>
    match s.m_threads[w]? with
    | some WorkerPC.waiting => some (s.setWorker w WorkerPC.acquiring)
    | _ => none
  | Action.wTake w =>
    match s.m_threads[w]? with
    | some WorkerPC.passed =>
      match s.m_tasks with
      | e :: rest =>
        some { s.setWorker w (WorkerPC.popped (some e)) with
          m_tasks := rest
          dequeued := s.dequeued ++ [(w, e)] }
      | [] => some (s.setWorker w (WorkerPC.popped none))
    | _ => none
  | Action.wUnlock w =>
    match s.m_threads[w]? with
    | some (WorkerPC.popped (some e)) =>
      match e.task with
      | some _ =>
        some { s.setWorker w (WorkerPC.running e) with
          m_mutex := none
          started := s.started ++ [(w, e)] }
      | none =>
        some { s.setWorker w WorkerPC.loopHead with
          m_mutex := none
          discarded := s.discarded ++ [(w, e)] }
    | some (WorkerPC.popped none) =>
      some { s.setWorker w WorkerPC.loopHead with m_mutex := none }
    | _ => none
  | Action.wRun w ok =>
    match s.m_threads[w]? with
    | some (WorkerPC.running e) =>
      if s.inAddTask (Caller.task w) then none
      else
        some { s.setWorker w WorkerPC.afterRun with
          finished := s.finished ++ [(w, e, ok)] }
    | _ => none
  | Action.wDec w =>
    match s.m_threads[w]? with
    | some WorkerPC.afterRun =>
      some { s.setWorker w WorkerPC.loopHead with
        m_pendingTasks := wrapInt (s.m_pendingTasks - 1)
        decrements := s.decrements + 1 }
    | _ => none
  | _ => none

/-- `ThreadPool::~ThreadPool()`, one statement at a time.  `join` of thread `k` returns
once that thread has left `ThreadProc`. -/
def destroy (s : ThreadPool) : Action → Option ThreadPool
  | Action.dtorEnter =>
    match s.dtor with
    | DtorPC.alive => some { s with dtor := DtorPC.draining }
    | _ => none
  | Action.dtorSpin =>
    match s.dtor with
    | DtorPC.draining => if s.m_pendingTasks ≠ 0 then some s else none
    | _ => none
  | Action.dtorDrained =>
    match s.dtor with
    | DtorPC.draining =>
      if s.m_pendingTasks = 0 then some { s with dtor := DtorPC.drained } else none
    | _ => none
  | Action.dtorStore =>
    match s.dtor with
    | DtorPC.drained => some { s with m_terminate := true, dtor := DtorPC.flagged }
    | _ => none
  | Action.dtorNotifyAll =>
    match s.dtor with
    | DtorPC.flagged => some { s with dtor := DtorPC.joining 0 }
    | _ => none
  | Action.dtorJoin =>
    match s.dtor with
    | DtorPC.joining k =>
      match s.m_threads[k]? with
      | some WorkerPC.stopped => some { s with dtor := DtorPC.joining (k + 1) }
      | _ => none
    | _ => none
  | Action.dtorReturn =>
    match s.dtor with
    | DtorPC.joining k =>
      if k = s.m_threads.length then some { s with dtor := DtorPC.done } else none
    | _ => none
  | _ => none

/-- One step of the whole system. -/
def step (s : ThreadPool) (a : Action) : Option ThreadPool :=
  match a with
  | Action.addLock _ _ => s.AddTask a
  | Action.addPush _ => s.AddTask a
  | Action.addCount _ => s.AddTask a
  | Action.addNotify _ => s.AddTask a
  | Action.addUnlock _ => s.AddTask a
  | Action.waitSpin _ => s.WaitForTasks a
  | Action.waitReturn _ => s.WaitForTasks a
  | Action.dtorEnter => s.destroy a
  | Action.dtorSpin => s.destroy a
  | Action.dtorDrained => s.destroy a
  | Action.dtorStore => s.destroy a
  | Action.dtorNotifyAll => s.destroy a
  | Action.dtorJoin => s.destroy a
  | Action.dtorReturn => s.destroy a
  | Action.wLoop _ => s.ThreadProc a
  | Action.wLock _ => s.ThreadProc a
  | Action.wCheck _ => s.ThreadProc a
  | Action.wWake _ => s.ThreadProc a
  | Action.wTake _ => s.ThreadProc a
  | Action.wUnlock _ => s.ThreadProc a
  | Action.wRun _ _ => s.ThreadProc a
  | Action.wDec _ => s.ThreadProc a

/-- Execute a schedule; `none` when some action of it is not enabled. -/
def run (s : ThreadPool) : List Action → Option ThreadPool
  | [] => some s
  | a :: rest =>
    match s.step a with
    | some t => t.run rest
    | none => none

/-- No client thread is inside `AddTask`. -/
def noClient (s : ThreadPool) : Bool :=
  match s.m_mutex with
  | some (Owner.producer (Caller.client _) _ _) => false
  | _ => true

/-- The action is one that the owner of the pool may let happen: no client thread begins a
call of `AddTask` once the destructor has been entered, and the destructor is not entered
while a client thread is inside `AddTask` (a C++ object must not be used by another thread
while it is destroyed).  Calls of `AddTask` that the tasks of the pool make from inside
`Run` are not restricted. -/
def owned (s : ThreadPool) : Action → Bool
  | Action.addLock (Caller.client _) _ => decide (s.dtor = DtorPC.alive)
  | Action.dtorEnter => s.noClient
  | _ => true

/-- Execute a schedule in which every action is allowed by `owned`. -/
def ownedRun (s : ThreadPool) : List Action → Option ThreadPool
  | [] => some s
  | a :: rest =>
    if s.owned a then
      match s.step a with
      | some t => t.ownedRun rest
      | none => none
    else none

/-- The statements of one complete call `AddTask(task)` by caller `c`. -/
def addCallBy (c : Caller) (task : TaskPtr) : List Action :=
  [Action.addLock c task, Action.addPush c, Action.addCount c, Action.addNotify c,
    Action.addUnlock c]

/-- The statements of one complete call `AddTask(task)` by client thread `p`. -/
def addCall (p : Nat) (task : TaskPtr) : List Action :=
  addCallBy (Caller.client p) task

/-- The statements of `k` complete calls `AddTask(task)` by client thread `p`, one after
the other. -/
def addCalls (p : Nat) (task : TaskPtr) : Nat → List Action
  | 0 => []
  | k + 1 => addCall p task ++ addCalls p task k

/-- One `AddTask` call, after which worker `0` takes the task and enters its `Run`. -/
def firstTaskRunning : List Action :=
  addCall 0 (some 7) ++ [Action.wLoop 0, Action.wLock 0, Action.wCheck 0, Action.wTake 0,
    Action.wUnlock 0]

/-- One full iteration of the loop of `ThreadProc` by worker `w` that finds a task, runs
it with outcome `ok` and counts it. -/
def workCycle (w : Nat) (ok : Bool) : List Action :=
  [Action.wLoop w, Action.wLock w, Action.wCheck w, Action.wTake w, Action.wUnlock w,
    Action.wRun w ok, Action.wDec w]

/-- One full iteration of the loop of `ThreadProc` by worker `w` that pops a null pointer:
`if (task)` skips the call of `Run` and the decrement. -/
def skipCycle (w : Nat) : List Action :=
  [Action.wLoop w, Action.wLock w, Action.wCheck w, Action.wTake w, Action.wUnlock w]

/-- `k` rounds in which client thread `p` calls `AddTask` with a null pointer and worker
`w` pops and skips it. -/
def nullRounds (p w : Nat) : Nat → List Action
  | 0 => []
  | k + 1 => addCall p none ++ skipCycle w ++ nullRounds p w k

/-- The pointers handed to `AddTask` in a schedule, in the order in which the calls got
the lock. -/
def submitted : List Action → List TaskPtr
  | [] => []
  | Action.addLock _ task :: rest => task :: submitted rest
  | _ :: rest => submitted rest

/-- The schedule contains no beginning of an `AddTask` call. -/
def noSubmission : List Action → Bool
  | [] => true
  | Action.addLock _ _ :: _ => false
  | _ :: rest => noSubmission rest

/-- Every `AddTask` call of the schedule is made by client thread `p`. -/
def onlyProducer (p : Nat) : List Action → Bool
  | [] => true
  | Action.addLock c _ :: rest => decide (c = Caller.client p) && onlyProducer p rest
  | _ :: rest => onlyProducer p rest

/-- The queue entries that `AddTask` makes of the pointers `ts`, the first one numbered
`k`. -/
def entriesFrom (k : Nat) : List TaskPtr → List Entry
  | [] => []
  | t :: ts => Entry.mk k t :: entriesFrom (k + 1) ts

/-! ## Measures of a state -/

end ThreadPool

namespace WorkerPC

/-- The worker is inside the block that holds `m_mutex`. -/
def locks : WorkerPC → Bool
  | checking => true
  | passed => true
  | popped _ => true
  | _ => false

/-- The worker has taken an entry out of the queue and has neither done
`--m_pendingTasks` for it nor skipped it as null (`1`), or not (`0`). -/
def holds : WorkerPC → Nat
  | popped (some _) => 1
  | running _ => 1
  | afterRun => 1
  | _ => 0

/-- The worker has popped entry `x` and not yet come to `if (task)`. -/
def hasTaken (x : Entry) : WorkerPC → Nat
  | popped (some e) => if e = x then 1 else 0
  | _ => 0

/-- The worker is inside `Run` of entry `x`. -/
def isRunning (x : Entry) : WorkerPC → Nat
  | running e => if e = x then 1 else 0
  | _ => 0

/-- The entry that the worker has popped and not yet brought to `if (task)`. -/
def takenList : WorkerPC → List Entry
  | popped (some e) => [e]
  | _ => []

/-- The entry whose `Run` the worker is executing. -/
def runningList : WorkerPC → List Entry
  | running e => [e]
  | _ => []

/-- The worker is inside `Run` (`1`) or not (`0`). -/
def inRun : WorkerPC → Nat
  | running _ => 1
  | _ => 0

/-- The worker is between the end of `Run` and `--m_pendingTasks`. -/
def isAfterRun : WorkerPC → Nat
  | afterRun => 1
  | _ => 0

end WorkerPC

namespace ThreadPool

/-- Sum of a measure over all workers. -/
def tally (f : WorkerPC → Nat) (s : ThreadPool) : Nat :=
  (s.m_threads.map f).sum

/-- Number of entries that workers have taken out of the queue and neither counted down
nor skipped as null. -/
def held (s : ThreadPool) : Nat :=
  s.tally WorkerPC.holds

/-- `1` while a call of `AddTask` is between `m_tasks.push` and `++m_pendingTasks`. -/
def uncounted (s : ThreadPool) : Nat :=
  match s.m_mutex with
  | some (Owner.producer _ _ AddPC.pushed) => 1
  | _ => 0

/-- The pointer of a call of `AddTask` that holds the lock and has not pushed yet. -/
def lockedTask (s : ThreadPool) : List TaskPtr :=
  match s.m_mutex with
  | some (Owner.producer _ task AddPC.locked) => [task]
  | _ => []

/-- No thread is inside `AddTask`. -/
def noProducer (s : ThreadPool) : Bool :=
  match s.m_mutex with
  | some (Owner.producer _ _ _) => false
  | _ => true

/-- The pointer of the entry is not null. -/
def nonNull (e : Entry) : Bool :=
  e.task.isSome

/-- Number of entries that are queued or held by a worker. -/
def outstanding (s : ThreadPool) : Nat :=
  s.m_tasks.length + s.held

/-- Number of `AddTask` calls that have returned. -/
def completedSubmissions (s : ThreadPool) : Nat :=
  match s.m_mutex with
  | some (Owner.producer _ _ AddPC.locked) => s.enqueued.length
  | some (Owner.producer _ _ _) => s.enqueued.length - 1
  | _ => s.enqueued.length

/-- The destructor has stored `true` into `m_terminate`. -/
def flagStored (s : ThreadPool) : Bool :=
  match s.dtor with
  | DtorPC.flagged => true
  | DtorPC.joining _ => true
  | DtorPC.done => true
  | _ => false

/-- The steps of `step` as a relation, one constructor for each way a statement can
execute; `step_sound` shows that every executable step is one of them. -/
inductive Step : ThreadPool → Action → ThreadPool → Prop where
  | addLock (s : ThreadPool) (p : Caller) (task : TaskPtr) (hm : s.m_mutex = none)
    (hcall : s.canCall p = true) :
    Step s (Action.addLock p task)
      { s with m_mutex := some (Owner.producer p task AddPC.locked) }
  | addPush (s : ThreadPool) (p : Caller) (task : TaskPtr)
    (hm : s.m_mutex = some (Owner.producer p task AddPC.locked)) :
    Step s (Action.addPush p)
      { s with
        m_tasks := s.m_tasks ++ [Entry.mk s.enqueued.length task]
        enqueued := s.enqueued ++ [Entry.mk s.enqueued.length task]
        m_mutex := some (Owner.producer p task AddPC.pushed) }
  | addCount (s : ThreadPool) (p : Caller) (task : TaskPtr)
    (hm : s.m_mutex = some (Owner.producer p task AddPC.pushed)) :
    Step s (Action.addCount p)
      { s with
        m_pendingTasks := wrapInt (s.m_pendingTasks + 1)
        increments := s.increments + 1
        peak := max s.peak (s.increments + 1 - s.decrements)
        m_mutex := some (Owner.producer p task AddPC.counted) }
  | addNotify (s : ThreadPool) (p : Caller) (task : TaskPtr)
    (hm : s.m_mutex = some (Owner.producer p task AddPC.counted)) :
    Step s (Action.addNotify p)
      { s with m_mutex := some (Owner.producer p task AddPC.notified) }
  | addUnlock (s : ThreadPool) (p : Caller) (task : TaskPtr)
    (hm : s.m_mutex = some (Owner.producer p task AddPC.notified)) :
    Step s (Action.addUnlock p) { s with m_mutex := none }
  | waitSpin (s : ThreadPool) (p : Nat) (hp : s.inAddTask (Caller.client p) = false)
    (hc : s.m_pendingTasks ≠ 0) : Step s (Action.waitSpin p) s
  | waitReturn (s : ThreadPool) (p : Nat) (hp : s.inAddTask (Caller.client p) = false)
    (hc : s.m_pendingTasks = 0) : Step s (Action.waitReturn p) s
  | dtorEnter (s : ThreadPool) (hd : s.dtor = DtorPC.alive) :
    Step s Action.dtorEnter { s with dtor := DtorPC.draining }
  | dtorSpin (s : ThreadPool) (hd : s.dtor = DtorPC.draining) (hc : s.m_pendingTasks ≠ 0) :
    Step s Action.dtorSpin s
  | dtorDrained (s : ThreadPool) (hd : s.dtor = DtorPC.draining)
    (hc : s.m_pendingTasks = 0) :
    Step s Action.dtorDrained { s with dtor := DtorPC.drained }
  | dtorStore (s : ThreadPool) (hd : s.dtor = DtorPC.drained) :
    Step s Action.dtorStore { s with m_terminate := true, dtor := DtorPC.flagged }
  | dtorNotifyAll (s : ThreadPool) (hd : s.dtor = DtorPC.flagged) :
    Step s Action.dtorNotifyAll { s with dtor := DtorPC.joining 0 }
  | dtorJoin (s : ThreadPool) (k : Nat) (hd : s.dtor = DtorPC.joining k)
    (hk : s.m_threads[k]? = some WorkerPC.stopped) :
    Step s Action.dtorJoin { s with dtor := DtorPC.joining (k + 1) }
  | dtorReturn (s : ThreadPool) (hd : s.dtor = DtorPC.joining s.m_threads.length) :
    Step s Action.dtorReturn { s with dtor := DtorPC.done }
  | wLoopStop (s : ThreadPool) (w : Nat) (hw : s.m_threads[w]? = some WorkerPC.loopHead)
    (ht : s.m_terminate = true) :
    Step s (Action.wLoop w) (s.setWorker w WorkerPC.stopped)
  | wLoopGo (s : ThreadPool) (w : Nat) (hw : s.m_threads[w]? = some WorkerPC.loopHead)
    (ht : s.m_terminate = false) :
    Step s (Action.wLoop w) (s.setWorker w WorkerPC.acquiring)
  | wLock (s : ThreadPool) (w : Nat) (hw : s.m_threads[w]? = some WorkerPC.acquiring)
    (hm : s.m_mutex = none) :
    Step s (Action.wLock w)
      { s.setWorker w WorkerPC.checking with m_mutex := some (Owner.worker w) }
  | wCheckPass (s : ThreadPool) (w : Nat) (hw : s.m_threads[w]? = some WorkerPC.checking)
    (hp : s.m_tasks ≠ [] ∨ s.m_terminate = true) :
    Step s (Action.wCheck w) (s.setWorker w WorkerPC.passed)
  | wCheckBlock (s : ThreadPool) (w : Nat) (hw : s.m_threads[w]? = some WorkerPC.checking)
    (hq : s.m_tasks = []) (ht : s.m_terminate = false) :
    Step s (Action.wCheck w) { s.setWorker w WorkerPC.waiting with m_mutex := none }
  | wWake (s : ThreadPool) (w : Nat) (hw : s.m_threads[w]? = some WorkerPC.waiting) :
    Step s (Action.wWake w) (s.setWorker w WorkerPC.acquiring)
  | wTakeSome (s : ThreadPool) (w : Nat) (e : Entry) (rest : List Entry)
    (hw : s.m_threads[w]? = some WorkerPC.passed) (hq : s.m_tasks = e :: rest) :
    Step s (Action.wTake w)
      { s.setWorker w (WorkerPC.popped (some e)) with
        m_tasks := rest
        dequeued := s.dequeued ++ [(w, e)] }
  | wTakeNone (s : ThreadPool) (w : Nat) (hw : s.m_threads[w]? = some WorkerPC.passed)
    (hq : s.m_tasks = []) :
    Step s (Action.wTake w) (s.setWorker w (WorkerPC.popped none))
  | wUnlockSome (s : ThreadPool) (w : Nat) (e : Entry)
    (hw : s.m_threads[w]? = some (WorkerPC.popped (some e))) (he : e.task ≠ none) :
    Step s (Action.wUnlock w)
      { s.setWorker w (WorkerPC.running e) with
        m_mutex := none
        started := s.started ++ [(w, e)] }
  | wUnlockNull (s : ThreadPool) (w : Nat) (e : Entry)
    (hw : s.m_threads[w]? = some (WorkerPC.popped (some e))) (he : e.task = none) :
    Step s (Action.wUnlock w)
      { s.setWorker w WorkerPC.loopHead with
        m_mutex := none
        discarded := s.discarded ++ [(w, e)] }
  | wUnlockNone (s : ThreadPool) (w : Nat)
    (hw : s.m_threads[w]? = some (WorkerPC.popped none)) :
    Step s (Action.wUnlock w) { s.setWorker w WorkerPC.loopHead with m_mutex := none }
  | wRun (s : ThreadPool) (w : Nat) (ok : Bool) (e : Entry)
    (hw : s.m_threads[w]? = some (WorkerPC.running e))
    (hcall : s.inAddTask (Caller.task w) = false) :
    Step s (Action.wRun w ok)
      { s.setWorker w WorkerPC.afterRun with finished := s.finished ++ [(w, e, ok)] }
  | wDec (s : ThreadPool) (w : Nat) (hw : s.m_threads[w]? = some WorkerPC.afterRun) :
    Step s (Action.wDec w)
      { s.setWorker w WorkerPC.loopHead with
        m_pendingTasks := wrapInt (s.m_pendingTasks - 1)
        decrements := s.decrements + 1 }

/-- What holds in every state a schedule can reach from a freshly constructed pool. -/
structure Inv (s : ThreadPool) : Prop where
  lock : ∀ (w : Nat) (pc : WorkerPC), s.m_threads[w]? = some pc →
    (pc.locks = true ↔ s.m_mutex = some (Owner.worker w))
  count : s.m_pendingTasks = wrapInt ((s.increments : Int) - (s.decrements : Int))
  incs : s.increments + s.uncounted = s.enqueued.length
  decs : s.decrements + s.tally WorkerPC.isAfterRun = s.finished.length
  deqs : s.dequeued.length = s.decrements + s.held + s.discarded.length
  uncq : s.uncounted ≤ s.m_tasks.length
  fifo : s.enqueued = s.dequeued.map Prod.snd ++ s.m_tasks
  seqs : s.enqueued.map Entry.seq = List.range s.enqueued.length
  taken : ∀ x, (s.dequeued.map Prod.snd).count x =
    (s.started.map Prod.snd).count x + (s.discarded.map Prod.snd).count x +
      s.tally (WorkerPC.hasTaken x)
  ran : ∀ x, (s.started.map Prod.snd).count x =
    (s.finished.map (fun r => r.2.1)).count x + s.tally (WorkerPC.isRunning x)
  flag : s.m_terminate = s.flagStored
  stop : ∀ w : Nat, s.m_threads[w]? = some WorkerPC.stopped → s.m_terminate = true
  joined : ∀ k : Nat, s.dtor = DtorPC.joining k →
    k ≤ s.m_threads.length ∧ ∀ i : Nat, i < k → s.m_threads[i]? = some WorkerPC.stopped
  fin : s.dtor = DtorPC.done → ∀ (w : Nat) (pc : WorkerPC), s.m_threads[w]? = some pc → pc = WorkerPC.stopped
  sentinel : ∀ w : Nat, s.m_threads[w]? = some (WorkerPC.popped none) →
    s.m_terminate = true ∧ s.m_tasks = []
  pass : ∀ w : Nat, s.m_threads[w]? = some WorkerPC.passed →
    s.m_tasks ≠ [] ∨ s.m_terminate = true
  caller : ∀ (w : Nat) (task : TaskPtr) (pc : AddPC),
    s.m_mutex = some (Owner.producer (Caller.task w) task pc) →
    ∃ e, s.m_threads[w]? = some (WorkerPC.running e)
  peak : s.increments ≤ s.decrements + s.peak
  nulls : ∀ d ∈ s.discarded, d.2.task = none
  tasks : ∀ d ∈ s.started, d.2.task ≠ none

/-- What links a state to the schedule `acts` that led to it: the push history lists the
tasks in the order in which their `AddTask` calls took the lock, and a thread inside
`AddTask` is one whose call is in the schedule. -/
def Traced (acts : List Action) (s : ThreadPool) : Prop :=
  Inv s ∧ s.enqueued.map Entry.task ++ s.lockedTask = submitted acts ∧
    ∀ p, onlyProducer p acts = true → ∀ q task pc,
      s.m_mutex = some (Owner.producer q task pc) → q = Caller.client p

/-- With a single worker, the histories are in step: the tasks that were popped are those
that were started followed by the one in hand, what was started is what finished followed
by the entry being run. -/
def Single (s : ThreadPool) : Prop :=
  ∀ pc, s.m_threads = [pc] →
    (s.dequeued.map Prod.snd).filter nonNull =
      s.started.map Prod.snd ++ pc.takenList.filter nonNull ∧
    s.started.map Prod.snd = s.finished.map (fun r => r.2.1) ++ pc.runningList

end ThreadPool

/-! ## `Material::FillConstantBuffer` -/

/-- `MaterialDomain`.  Its declaration (`SceneTypes.h`) is not part of the sources at hand:
these are the six enumerators that `Material.cpp` names, and `other` stands for every
further value, which only the `default:` labels of the switches cover. -/
inductive MaterialDomain where
  | Opaque
  | AlphaTested
  | AlphaBlended
  | Transmissive
  | TransmissiveAlphaTested
  | TransmissiveAlphaBlended
  | other
deriving DecidableEq, Repr

/-- The fields of `Material` (declared in `SceneTypes.h`) that the two switches over
`domain` read.  The `float` fields are rationals: the function only copies them or stores
the literals `0.f`, `1.f` and `-1.f`, and does no arithmetic on them. -/
structure Material where
  domain : MaterialDomain
  opacity : ℚ
  alphaCutoff : ℚ
deriving DecidableEq

/-- The fields of `MaterialConstants` (declared in `material_cb.h`) that the two switches
over `domain` write. -/
structure MaterialConstants where
  opacity : ℚ
  alphaCutoff : ℚ
deriving DecidableEq

namespace Material

/-- First switch of `FillConstantBuffer`: `constants.opacity`. -/
def fillOpacity (m : Material) (constants : MaterialConstants) : MaterialConstants :=
  match m.domain with
  | MaterialDomain.AlphaBlended => { constants with opacity := m.opacity }
  | MaterialDomain.TransmissiveAlphaBlended => { constants with opacity := m.opacity }
  | MaterialDomain.Opaque => { constants with opacity := 1 }
  | MaterialDomain.AlphaTested => { constants with opacity := 1 }
  | MaterialDomain.Transmissive => { constants with opacity := 1 }
  | MaterialDomain.TransmissiveAlphaTested => { constants with opacity := 1 }
  | MaterialDomain.other => constants

/-- Body of the labels `Opaque` and `Transmissive` of the second switch, which ends in
`break`. -/
def neverDiscard (constants : MaterialConstants) : MaterialConstants :=
  { constants with alphaCutoff := -1 }

/-- Second switch of `FillConstantBuffer`: `constants.alphaCutoff`.  The labels
`AlphaBlended` and `TransmissiveAlphaBlended` store `0.f` and, having no `break`, run on
into the body of the labels `Opaque` and `Transmissive`. -/
def fillAlphaCutoff (m : Material) (constants : MaterialConstants) : MaterialConstants :=
  match m.domain with
  | MaterialDomain.AlphaTested => { constants with alphaCutoff := m.alphaCutoff }
  | MaterialDomain.TransmissiveAlphaTested => { constants with alphaCutoff := m.alphaCutoff }
  | MaterialDomain.AlphaBlended => neverDiscard { constants with alphaCutoff := 0 }
  | MaterialDomain.TransmissiveAlphaBlended => neverDiscard { constants with alphaCutoff := 0 }
  | MaterialDomain.Opaque => neverDiscard constants
  | MaterialDomain.Transmissive => neverDiscard constants
  | MaterialDomain.other => constants

/-- `Material::FillConstantBuffer(MaterialConstants& constants, bool)`, restricted to the
fields written by the two switches over `domain`; `constants` is the buffer as the caller
passes it in. -/
def FillConstantBuffer (m : Material) (constants : MaterialConstants) : MaterialConstants :=
  m.fillAlphaCutoff (m.fillOpacity constants)

end Material

/-! ## Proofs about the thread pool -/

set_option linter.unusedTactic false

set_option linter.unreachableTactic false

namespace ThreadPool

theorem wrapInt_wrapInt_add (x y : Int) : wrapInt (wrapInt x + y) = wrapInt (x + y) := by
  unfold wrapInt; omega

theorem wrapInt_of_small (x : Int) (h1 : -2147483648 ≤ x) (h2 : x < 2147483648) :
    wrapInt x = x := by
  unfold wrapInt; omega

theorem wrapInt_eq_zero (x : Int) (h1 : 0 ≤ x) (h2 : x < 4294967296) (h : wrapInt x = 0) :
    x = 0 := by
  unfold wrapInt at h; omega

theorem getElem?_set_cases {α : Type} {l : List α} {w i : Nat} {a b : α}
    (h : (l.set w a)[i]? = some b) :
    (i = w ∧ b = a ∧ l[w]?.isSome) ∨ (i ≠ w ∧ l[i]? = some b) := by
  by_cases hi : i = w
  · subst hi
    left
    by_cases hl : i < l.length
    · simp [List.getElem?_set, hl] at h
      simp [hl, h]
    · simp [List.getElem?_set, hl] at h
  · right
    refine ⟨hi, ?_⟩
    rw [List.getElem?_set_ne (fun h => hi h.symm)] at h
    exact h

theorem sum_map_set {α : Type} (f : α → Nat) :
    ∀ (l : List α) (w : Nat) (a b : α), l[w]? = some a →
      ((l.set w b).map f).sum + f a = (l.map f).sum + f b
  | [], w, a, b, h => by simp at h
  | x :: l, 0, a, b, h => by
    simp at h; subst h; simp; omega
  | x :: l, w + 1, a, b, h => by
    simp at h
    have := sum_map_set f l w a b h
    simp only [List.set_cons_succ, List.map_cons, List.sum_cons]; omega

theorem sum_map_set_eq {α : Type} {f : α → Nat} {l : List α} {w : Nat} {a b : α}
    (h : l[w]? = some a) :
    ((l.set w b).map f).sum = (l.map f).sum + f b - f a := by
  have := sum_map_set f l w a b h
  omega

theorem le_sum_map {α : Type} (f : α → Nat) :
    ∀ {l : List α} {w : Nat} {a : α}, l[w]? = some a → f a ≤ (l.map f).sum
  | [], w, a, h => by simp at h
  | x :: l, 0, a, h => by
    simp at h; subst h; simp
  | x :: l, w + 1, a, h => by
    simp at h
    have := le_sum_map f h
    simp only [List.map_cons, List.sum_cons]; omega

theorem run_append (s : ThreadPool) (xs ys : List Action) :
    s.run (xs ++ ys) = (s.run xs).bind (fun t => t.run ys) := by
  induction xs generalizing s with
  | nil => simp [run]
  | cons a xs ih =>
    simp only [List.cons_append, run]
    cases h : s.step a with
    | none => simp
    | some t => simp [ih]

theorem step_sound {s t : ThreadPool} {a : Action} (h : s.step a = some t) : Step s a t := by
  cases a <;> simp only [step, AddTask, WaitForTasks, ThreadProc, destroy] at h <;>
    (repeat' (split at h)) <;> simp at h <;> subst h
  all_goals first
    | (constructor <;> simp_all <;> done)
    | (subst_vars; constructor <;> simp_all <;> done)
    | (subst_vars; exact Step.addUnlock _ _ _ (by assumption))

theorem Step.lock {s t : ThreadPool} {a : Action} (h : Step s a t) (hi : Inv s) :
    ∀ (w : Nat) (pc : WorkerPC), t.m_threads[w]? = some pc →
      (pc.locks = true ↔ t.m_mutex = some (Owner.worker w)) := by
  intro v pc hv
  cases h
  all_goals first
    | (have h1 := hi.lock v pc hv; simp_all [WorkerPC.locks]; done)
    | (simp only [setWorker] at hv
       have h2 := hi.lock _ _ ‹s.m_threads[_]? = some _›
       rcases getElem?_set_cases hv with ⟨rfl, rfl, _⟩ | ⟨hne, hv⟩
       · simp_all [WorkerPC.locks, setWorker]
       · have h1 := hi.lock v pc hv
         simp_all [WorkerPC.locks, setWorker]
         try omega)

theorem Step.nums {s t : ThreadPool} {a : Action} (h : Step s a t) (hi : Inv s) :
    t.m_pendingTasks = wrapInt ((t.increments : Int) - (t.decrements : Int)) ∧
    t.increments + t.uncounted = t.enqueued.length ∧
    t.decrements + t.tally WorkerPC.isAfterRun = t.finished.length ∧
    t.dequeued.length = t.decrements + t.held + t.discarded.length ∧
    t.uncounted ≤ t.m_tasks.length := by
  have e1 := hi.count
  have e2 := hi.incs
  have e3 := hi.decs
  have e4 := hi.deqs
  have e5 := hi.uncq
  simp only [tally, held] at e3 e4
  cases h
  all_goals first
    | (simp_all [uncounted, tally, held, wrapInt]; done)
    | (simp_all [uncounted, tally, held, wrapInt]; omega)
    | (have hl := hi.lock _ _ ‹s.m_threads[_]? = some _›
       have g1 := le_sum_map WorkerPC.holds ‹s.m_threads[_]? = some _›
       have g2 := le_sum_map WorkerPC.isAfterRun ‹s.m_threads[_]? = some _›
       simp only [tally, held, setWorker]
       rw [sum_map_set_eq ‹s.m_threads[_]? = some _›, sum_map_set_eq ‹s.m_threads[_]? = some _›]
       simp_all [uncounted, WorkerPC.locks, WorkerPC.holds, WorkerPC.isAfterRun, wrapInt]
       try omega)

theorem Step.lists {s t : ThreadPool} {a : Action} (h : Step s a t) (hi : Inv s) :
    t.enqueued = t.dequeued.map Prod.snd ++ t.m_tasks ∧
    t.enqueued.map Entry.seq = List.range t.enqueued.length := by
  have e1 := hi.fifo
  have e2 := hi.seqs
  cases h
  all_goals first
    | (simp_all [setWorker]; done)
    | (refine ⟨?_, ?_⟩
       · show s.enqueued ++ _ = List.map Prod.snd s.dequeued ++ (s.m_tasks ++ _)
         rw [← List.append_assoc, ← e1]
       · show List.map Entry.seq (s.enqueued ++ _) = List.range (s.enqueued ++ _).length
         simp [List.range_succ, e2])

theorem Step.counts {s t : ThreadPool} {a : Action} (h : Step s a t) (hi : Inv s) (x : Entry) :
    (t.dequeued.map Prod.snd).count x =
      (t.started.map Prod.snd).count x + (t.discarded.map Prod.snd).count x +
        t.tally (WorkerPC.hasTaken x) ∧
    (t.started.map Prod.snd).count x =
      (t.finished.map (fun r => r.2.1)).count x + t.tally (WorkerPC.isRunning x) := by
  have e1 := hi.taken x
  have e2 := hi.ran x
  simp only [tally] at e1 e2
  cases h
  all_goals first
    | (simp_all [tally]; done)
    | (have g1 := le_sum_map (WorkerPC.hasTaken x) ‹s.m_threads[_]? = some _›
       have g2 := le_sum_map (WorkerPC.isRunning x) ‹s.m_threads[_]? = some _›
       simp only [tally, setWorker]
       rw [sum_map_set_eq ‹s.m_threads[_]? = some _›, sum_map_set_eq ‹s.m_threads[_]? = some _›]
       simp_all [WorkerPC.hasTaken, WorkerPC.isRunning, List.count_singleton]
       try (split_ifs at * <;> omega))

theorem Step.flag {s t : ThreadPool} {a : Action} (h : Step s a t) (hi : Inv s) :
    t.m_terminate = t.flagStored := by
  have e1 := hi.flag
  cases h <;> simp_all [flagStored, setWorker]

theorem Step.length_threads {s t : ThreadPool} {a : Action} (h : Step s a t) :
    t.m_threads.length = s.m_threads.length := by
  cases h <;> simp [setWorker]

theorem Step.stop {s t : ThreadPool} {a : Action} (h : Step s a t) (hi : Inv s) :
    ∀ w : Nat, t.m_threads[w]? = some WorkerPC.stopped → t.m_terminate = true := by
  intro v hv
  cases h
  all_goals first
    | (have h1 := hi.stop v hv; simp_all; done)
    | (simp; done)
    | (simp only [setWorker] at hv
       rcases getElem?_set_cases hv with ⟨rfl, h2, _⟩ | ⟨hne, hv⟩
       · cases h2 <;> (show s.m_terminate = true; assumption)
       · exact hi.stop v hv)

theorem Step.sentinel {s t : ThreadPool} {a : Action} (h : Step s a t) (hi : Inv s) :
    ∀ w : Nat, t.m_threads[w]? = some (WorkerPC.popped none) →
      t.m_terminate = true ∧ t.m_tasks = [] := by
  intro v hv
  cases h
  all_goals first
    | (have h1 := hi.sentinel v hv; simp_all; done)
    | (have h1 := hi.sentinel v hv
       have h2 := hi.lock v _ hv
       simp_all [WorkerPC.locks]; done)
    | (simp only [setWorker] at hv
       have h3 := hi.lock _ _ ‹s.m_threads[_]? = some _›
       rcases getElem?_set_cases hv with ⟨rfl, h2, _⟩ | ⟨hne, hv⟩
       · cases h2 <;>
           (have h4 := hi.pass _ ‹s.m_threads[_]? = some _›; simp_all [setWorker])
       · have h1 := hi.sentinel v hv
         have h2 := hi.lock v _ hv
         simp_all [WorkerPC.locks, setWorker])

theorem Step.pass {s t : ThreadPool} {a : Action} (h : Step s a t) (hi : Inv s) :
    ∀ w : Nat, t.m_threads[w]? = some WorkerPC.passed →
      t.m_tasks ≠ [] ∨ t.m_terminate = true := by
  intro v hv
  cases h
  all_goals first
    | (have h1 := hi.pass v hv; simp_all; done)
    | (simp; done)
    | (simp only [setWorker] at hv
       have h3 := hi.lock _ _ ‹s.m_threads[_]? = some _›
       rcases getElem?_set_cases hv with ⟨rfl, h2, _⟩ | ⟨hne, hv⟩
       · cases h2 <;> simp_all [setWorker]
       · have h1 := hi.pass v hv
         have h2 := hi.lock v _ hv
         simp_all [WorkerPC.locks, setWorker])

theorem Step.joined {s t : ThreadPool} {a : Action} (h : Step s a t) (hi : Inv s) :
    ∀ k : Nat, t.dtor = DtorPC.joining k →
      k ≤ t.m_threads.length ∧ ∀ i : Nat, i < k → t.m_threads[i]? = some WorkerPC.stopped := by
  intro k hk
  have hlen := h.length_threads
  cases h
  case dtorJoin k0 hd0 hk0 =>
    have hk2 : DtorPC.joining (k0 + 1) = DtorPC.joining k := hk
    cases hk2
    have h1 := hi.joined k0 hd0
    have h3 : k0 < s.m_threads.length := by
      rcases Nat.lt_or_ge k0 s.m_threads.length with hlt | hge
      · exact hlt
      · rw [List.getElem?_eq_none hge] at hk0; cases hk0
    refine ⟨h3, ?_⟩
    intro i hik
    rcases Nat.lt_or_ge i k0 with hlt | hge
    · exact h1.2 i hlt
    · have h5 : i = k0 := Nat.le_antisymm (Nat.lt_succ_iff.mp hik) hge
      subst h5
      exact hk0
  all_goals first
    | (have h1 := hi.joined k hk; simp_all; done)
    | (simp at hk; done)
    | (simp at hk; subst hk; simp; done)
    | (have h1 := hi.joined k hk
       refine ⟨by omega, ?_⟩
       intro i hik
       have h2 := h1.2 i hik
       simp only [setWorker]
       rw [List.getElem?_set_ne]
       · exact h2
       · rintro rfl
         simp_all)

theorem Step.fin {s t : ThreadPool} {a : Action} (h : Step s a t) (hi : Inv s) :
    t.dtor = DtorPC.done → ∀ (w : Nat) (pc : WorkerPC), t.m_threads[w]? = some pc →
      pc = WorkerPC.stopped := by
  intro hd v pc hv
  cases h
  all_goals first
    | (have h1 := hi.fin hd v pc hv; simp_all; done)
    | (simp at hd; done)
    | (have h1 := hi.fin hd _ _ ‹s.m_threads[_]? = some _›; simp at h1; done)
    | (have h1 := hi.joined _ ‹s.dtor = DtorPC.joining _›
       have hv2 : s.m_threads[v]? = some pc := hv
       have h3 : v < s.m_threads.length := by
         rcases Nat.lt_or_ge v s.m_threads.length with hlt | hge
         · exact hlt
         · rw [List.getElem?_eq_none hge] at hv2; cases hv2
       have h4 := h1.2 v h3
       rw [hv2] at h4
       exact Option.some.inj h4)

theorem Step.caller {s t : ThreadPool} {a : Action} (h : Step s a t) (hi : Inv s) :
    ∀ (w : Nat) (task : TaskPtr) (pc : AddPC),
      t.m_mutex = some (Owner.producer (Caller.task w) task pc) →
      ∃ e, t.m_threads[w]? = some (WorkerPC.running e) := by
  intro v task pc hm
  cases h
  case addLock p task0 hm0 hcall =>
    have hm2 : some (Owner.producer p task0 AddPC.locked) =
      some (Owner.producer (Caller.task v) task pc) := hm
    simp only [Option.some.injEq, Owner.producer.injEq] at hm2
    obtain ⟨rfl, _, _⟩ := hm2
    simp only [canCall] at hcall
    split at hcall
    · exact ⟨_, by assumption⟩
    · cases hcall
  case wRun w ok e hw hcall =>
    have hm2 : s.m_mutex = some (Owner.producer (Caller.task v) task pc) := hm
    obtain ⟨e2, he⟩ := hi.caller v task pc hm2
    refine ⟨e2, ?_⟩
    show (s.m_threads.set w _)[v]? = _
    rw [List.getElem?_set_ne]
    · exact he
    · rintro rfl
      simp [inAddTask, hm2] at hcall
  all_goals first
    | (exact hi.caller v task pc hm)
    | (simp at hm; done)
    | (have hm2 : _ = _ := hm
       simp only [Option.some.injEq, Owner.producer.injEq] at hm2
       obtain ⟨rfl, _, _⟩ := hm2
       exact hi.caller v _ _ ‹s.m_mutex = some _›)
    | (obtain ⟨e, he⟩ := hi.caller v task pc hm
       refine ⟨e, ?_⟩
       simp only [setWorker]
       rw [List.getElem?_set_ne]
       · exact he
       · rintro rfl
         simp_all [inAddTask])

theorem Step.peak {s t : ThreadPool} {a : Action} (h : Step s a t) (hi : Inv s) :
    t.increments ≤ t.decrements + t.peak := by
  have e1 := hi.peak
  cases h
  all_goals first
    | exact e1
    | (simp only [setWorker]; omega)
    | (show s.increments + 1 ≤ s.decrements + max s.peak (s.increments + 1 - s.decrements)
       have := Nat.le_max_right s.peak (s.increments + 1 - s.decrements)
       omega)

theorem Step.nulls {s t : ThreadPool} {a : Action} (h : Step s a t) (hi : Inv s) :
    ∀ d ∈ t.discarded, d.2.task = none := by
  intro d hd
  cases h
  all_goals first
    | exact hi.nulls d hd
    | (rcases List.mem_append.mp hd with h1 | h1
       · exact hi.nulls d h1
       · rw [List.mem_singleton] at h1
         subst h1
         assumption)

theorem Step.tasks {s t : ThreadPool} {a : Action} (h : Step s a t) (hi : Inv s) :
    ∀ d ∈ t.started, d.2.task ≠ none := by
  intro d hd
  cases h
  all_goals first
    | exact hi.tasks d hd
    | (rcases List.mem_append.mp hd with h1 | h1
       · exact hi.tasks d h1
       · rw [List.mem_singleton] at h1
         subst h1
         assumption)

theorem Step.inv {s t : ThreadPool} {a : Action} (h : Step s a t) (hi : Inv s) : Inv t where
  lock := h.lock hi
  count := (h.nums hi).1
  incs := (h.nums hi).2.1
  decs := (h.nums hi).2.2.1
  deqs := (h.nums hi).2.2.2.1
  uncq := (h.nums hi).2.2.2.2
  fifo := (h.lists hi).1
  seqs := (h.lists hi).2
  taken := fun x => (h.counts hi x).1
  ran := fun x => (h.counts hi x).2
  flag := h.flag hi
  stop := h.stop hi
  joined := h.joined hi
  fin := h.fin hi
  sentinel := h.sentinel hi
  pass := h.pass hi
  caller := h.caller hi
  peak := h.peak hi
  nulls := h.nulls hi
  tasks := h.tasks hi

theorem create_threads (hw n : Nat) (w : Nat) (pc : WorkerPC)
    (h : (create hw n).m_threads[w]? = some pc) : pc = WorkerPC.loopHead := by
  simp only [create] at h
  rw [List.getElem?_replicate] at h
  split_ifs at h <;> exact (Option.some.inj h).symm

theorem create_inv (hw n : Nat) : Inv (create hw n) where
  lock := by
    intro w pc h
    have := create_threads hw n w pc h
    subst this
    simp [WorkerPC.locks, create]
  count := by simp [create, wrapInt]
  incs := by simp [create, uncounted]
  decs := by simp [create, tally, WorkerPC.isAfterRun]
  deqs := by simp [create, held, tally, WorkerPC.holds]
  uncq := by simp [create, uncounted]
  fifo := by simp [create]
  seqs := by simp [create]
  taken := by intro x; simp [create, tally, WorkerPC.hasTaken]
  ran := by intro x; simp [create, tally, WorkerPC.isRunning]
  flag := by simp [create, flagStored]
  stop := by
    intro w h
    have := create_threads hw n w _ h
    cases this
  joined := by intro k h; simp [create] at h
  fin := by intro h; simp [create] at h
  sentinel := by
    intro w h
    have := create_threads hw n w _ h
    cases this
  pass := by
    intro w h
    have := create_threads hw n w _ h
    cases this
  caller := by intro w task pc h; simp [create] at h
  peak := by simp [create]
  nulls := by intro d h; simp [create] at h
  tasks := by intro d h; simp [create] at h

theorem run_cons {s t : ThreadPool} {a : Action} {rest : List Action}
    (h : s.run (a :: rest) = some t) : ∃ m, s.step a = some m ∧ m.run rest = some t := by
  simp only [run] at h
  cases hm : s.step a with
  | none => simp [hm] at h
  | some m => exact ⟨m, rfl, by simpa [hm] using h⟩

theorem run_invariant (P : ThreadPool → Prop)
    (hstep : ∀ s a t, P s → Step s a t → P t) :
    ∀ (acts : List Action) (s t : ThreadPool), P s → s.run acts = some t → P t
  | [], s, t, hs, h => by
    simp only [run] at h
    cases h
    exact hs
  | a :: rest, s, t, hs, h => by
    obtain ⟨m, hm, hr⟩ := run_cons h
    exact run_invariant P hstep rest m t (hstep s a m hs (step_sound hm)) hr

theorem run_inv {hw n : Nat} {acts : List Action} {s : ThreadPool}
    (h : (create hw n).run acts = some s) : Inv s :=
  run_invariant Inv (fun _ _ _ hs hst => hst.inv hs) acts _ _ (create_inv hw n) h

theorem tally_le (f g : WorkerPC → Nat) (hfg : ∀ pc, f pc ≤ g pc) (s : ThreadPool) :
    s.tally f ≤ s.tally g := by
  unfold tally
  induction s.m_threads with
  | nil => simp
  | cons x l ih =>
    have := hfg x
    simp only [List.map_cons, List.sum_cons]; omega

theorem hasTaken_le_holds (x : Entry) (pc : WorkerPC) : pc.hasTaken x ≤ pc.holds := by
  cases pc <;> simp [WorkerPC.hasTaken, WorkerPC.holds]
  rename_i t
  cases t <;> simp
  split_ifs <;> omega

theorem isRunning_le_holds (x : Entry) (pc : WorkerPC) : pc.isRunning x ≤ pc.holds := by
  cases pc <;> simp [WorkerPC.isRunning, WorkerPC.holds]
  split_ifs <;> omega

/-- In a reachable state the started entries are, with multiplicity, among the dequeued
ones. -/
theorem Inv.started_subperm {s : ThreadPool} (hi : Inv s) :
    (s.started.map Prod.snd).Subperm (s.dequeued.map Prod.snd) := by
  rw [List.subperm_ext_iff]
  intro x _
  have := hi.taken x
  omega

theorem Inv.enqueued_nodup {s : ThreadPool} (hi : Inv s) :
    (s.enqueued.map Entry.seq).Nodup := by
  rw [hi.seqs]
  exact List.nodup_range _

theorem Inv.dequeued_nodup {s : ThreadPool} (hi : Inv s) :
    ((s.dequeued.map Prod.snd).map Entry.seq).Nodup := by
  have h := hi.enqueued_nodup
  rw [hi.fifo, List.map_append] at h
  exact h.of_append_left

theorem Inv.started_nodup {s : ThreadPool} (hi : Inv s) :
    ((s.started.map Prod.snd).map Entry.seq).Nodup := by
  obtain ⟨l, hperm, hsub⟩ := hi.started_subperm
  have h1 : (l.map Entry.seq).Nodup := (hi.dequeued_nodup).sublist (hsub.map _)
  exact (hperm.map Entry.seq).nodup_iff.mp h1

/-- C7: in every reachable state no queue entry has been popped twice (so no two workers
obtained the same entry), no entry has had `Run` called twice, and `Run` was only called
on popped entries, which are entries that `AddTask` pushed. -/
theorem entry_taken_and_run_at_most_once (hw n : Nat) (acts : List Action) (s : ThreadPool)
    (h : (create hw n).run acts = some s) :
    (s.enqueued.map Entry.seq).Nodup ∧
    (s.dequeued.map (fun d => d.2.seq)).Nodup ∧
    (s.started.map (fun d => d.2.seq)).Nodup ∧
    (∀ x : Entry, (s.dequeued.map Prod.snd).count x ≤ 1) ∧
    (∀ x : Entry, (s.started.map Prod.snd).count x ≤ (s.dequeued.map Prod.snd).count x) ∧
    (∀ d ∈ s.dequeued, d.2 ∈ s.enqueued) := by
  have hi := run_inv h
  have hd := hi.dequeued_nodup
  have hs := hi.started_nodup
  rw [List.map_map] at hd hs
  refine ⟨hi.enqueued_nodup, hd, hs, ?_, ?_, ?_⟩
  · intro x
    have h2 : (s.dequeued.map Prod.snd).Nodup := List.Nodup.of_map _ hi.dequeued_nodup
    exact List.nodup_iff_count_le_one.mp h2 x
  · intro x
    have := hi.taken x
    omega
  · intro d hd
    rw [hi.fifo]
    exact List.mem_append_left _ (List.mem_map_of_mem _ hd)

theorem entry_taken_and_run_at_most_once_witness :
    ∃ s, (create 0 2).run (addCall 0 (some 7) ++ addCall 1 (some 7) ++ workCycle 0 true ++
        [Action.wLoop 1, Action.wLock 1, Action.wCheck 1, Action.wTake 1]) = some s ∧
      s.dequeued.length = 2 ∧ (s.dequeued.map (fun d => d.2.seq)).Nodup := by
  have h : ((create 0 2).run (addCall 0 (some 7) ++ addCall 1 (some 7) ++ workCycle 0 true ++
      [Action.wLoop 1, Action.wLock 1, Action.wCheck 1, Action.wTake 1])).isSome = true := by
    decide
  obtain ⟨s, hs⟩ := Option.isSome_iff_exists.mp h
  refine ⟨s, hs, ?_, (entry_taken_and_run_at_most_once 0 2 _ s hs).2.1⟩
  have h2 : ((create 0 2).run (addCall 0 (some 7) ++ addCall 1 (some 7) ++ workCycle 0 true ++
      [Action.wLoop 1, Action.wLock 1, Action.wCheck 1, Action.wTake 1])).map
        (fun t => t.dequeued.length) = some 2 := by
    decide
  rw [hs] at h2
  exact Option.some.inj h2

theorem submitted_append (xs ys : List Action) :
    submitted (xs ++ ys) = submitted xs ++ submitted ys := by
  induction xs with
  | nil => simp [submitted]
  | cons a xs ih => cases a <;> simp [submitted, ih]

theorem onlyProducer_append (p : Nat) (xs ys : List Action) :
    onlyProducer p (xs ++ ys) = (onlyProducer p xs && onlyProducer p ys) := by
  induction xs with
  | nil => simp [onlyProducer]
  | cons a xs ih => cases a <;> simp [onlyProducer, ih, Bool.and_assoc]

theorem run_trace_invariant (R : List Action → ThreadPool → Prop)
    (hstep : ∀ pre s a t, R pre s → Step s a t → R (pre ++ [a]) t) :
    ∀ (acts pre : List Action) (s t : ThreadPool), R pre s → s.run acts = some t →
      R (pre ++ acts) t
  | [], pre, s, t, hs, h => by
    simp only [run] at h
    cases h
    simpa using hs
  | a :: rest, pre, s, t, hs, h => by
    obtain ⟨m, hm, hr⟩ := run_cons h
    have := run_trace_invariant R hstep rest (pre ++ [a]) m t
      (hstep pre s a m hs (step_sound hm)) hr
    simpa using this

theorem Step.producer_origin {s t : ThreadPool} {a : Action} (h : Step s a t)
    {q : Caller} {task : TaskPtr} {pc : AddPC} (hm : t.m_mutex = some (Owner.producer q task pc)) :
    a = Action.addLock q task ∨ ∃ pc0, s.m_mutex = some (Owner.producer q task pc0) := by
  cases h
  all_goals first
    | (right; exact ⟨_, hm⟩)
    | (simp at hm; done)
    | (simp at hm; left; simp [hm]; done)
    | (simp at hm; right; obtain ⟨rfl, rfl, _⟩ := hm; exact ⟨_, by assumption⟩)
    | (simp [setWorker] at hm; right; exact ⟨_, hm⟩)

theorem Step.traced {pre : List Action} {s t : ThreadPool} {a : Action}
    (hs : Traced pre s) (h : Step s a t) : Traced (pre ++ [a]) t := by
  obtain ⟨hi, h1, h2⟩ := hs
  refine ⟨h.inv hi, ?_, ?_⟩
  · rw [submitted_append, ← h1]
    cases h
    all_goals first
      | (simp_all [submitted, lockedTask]; done)
      | (have hl := hi.lock _ _ ‹s.m_threads[_]? = some _›
         simp_all [submitted, lockedTask, setWorker, WorkerPC.locks])
  · intro p hp q task pc hm
    rw [onlyProducer_append, Bool.and_eq_true] at hp
    rcases h.producer_origin hm with rfl | ⟨pc0, h0⟩
    · simpa [onlyProducer] using hp.2
    · exact h2 p hp.1 q task pc0 h0

theorem run_traced {hw n : Nat} {acts : List Action} {s : ThreadPool}
    (h : (create hw n).run acts = some s) : Traced acts s := by
  have := run_trace_invariant Traced (fun _ _ _ _ hs hst => hst.traced hs) acts [] _ s
    ⟨create_inv hw n, by simp [create, lockedTask, submitted], by simp [create]⟩ h
  simpa using this

theorem set_eq_singleton {α : Type} {l : List α} {w : Nat} {a b c : α}
    (h1 : l[w]? = some a) (h2 : l.set w b = [c]) : l = [a] ∧ c = b := by
  match l, w with
  | [], _ => simp at h1
  | [x], 0 =>
    simp at h1 h2
    subst h1
    exact ⟨rfl, h2.symm⟩
  | [x], w + 1 => simp at h1
  | x :: y :: l, 0 => simp at h2
  | x :: y :: l, w + 1 => simp at h2

theorem Step.single {s t : ThreadPool} {a : Action} (h : Step s a t) (hs : Single s) :
    Single t := by
  intro pc hpc
  cases h
  all_goals first
    | (have h1 := hs pc hpc; simp_all; done)
    | (simp only [setWorker] at hpc
       obtain ⟨h3, rfl⟩ := set_eq_singleton ‹s.m_threads[_]? = some _› hpc
       have h1 := hs _ h3
       simp_all [WorkerPC.takenList, WorkerPC.runningList, setWorker, List.filter_cons,
         nonNull]
       done)

theorem run_single {hw n : Nat} {acts : List Action} {s : ThreadPool}
    (h : (create hw n).run acts = some s) : Single s := by
  refine run_invariant Single (fun _ _ _ hs hst => hst.single hs) acts _ _ ?_ h
  intro pc hpc
  have : pc = WorkerPC.loopHead := create_threads hw n 0 pc (by rw [hpc]; rfl)
  subst this
  simp [create, WorkerPC.takenList, WorkerPC.runningList]

theorem filter_nonNull_map (l : List Entry) :
    (l.filter nonNull).map Entry.task = (l.map Entry.task).filter Option.isSome := by
  induction l with
  | nil => rfl
  | cons e l ih =>
    cases he : e.task <;> simp [List.filter_cons, nonNull, he, ih]

/-- C4: the entries in the order in which workers popped them are a beginning of the entries
in the order in which `AddTask` pushed them, what is left of the push order is the queue,
and the pushes are in the order in which the `AddTask` calls of the schedule took the
lock; with a single worker, the entries in the order in which their `Run` was called, and
in which it ended, are a beginning of the pushed tasks (the pushed entries whose pointer
is not null) in push order, so the tasks are run in the order of their `AddTask` calls. -/
theorem dequeue_order_is_enqueue_order (hw n : Nat) (acts : List Action) (s : ThreadPool)
    (h : (create hw n).run acts = some s) :
    s.dequeued.map Prod.snd <+: s.enqueued ∧
    s.enqueued = s.dequeued.map Prod.snd ++ s.m_tasks ∧
    s.enqueued.map Entry.task <+: submitted acts ∧
    (s.m_threads.length = 1 →
      s.started.map Prod.snd <+: s.enqueued.filter nonNull ∧
      s.finished.map (fun r => r.2.1) <+: s.enqueued.filter nonNull ∧
      s.started.map (fun d => d.2.task) <+: (submitted acts).filter Option.isSome ∧
      s.finished.map (fun r => r.2.1.task) <+: (submitted acts).filter Option.isSome) := by
  have hi := run_inv h
  obtain ⟨_, ht, _⟩ := run_traced h
  have hp : s.enqueued.map Entry.task <+: submitted acts := ⟨_, ht⟩
  refine ⟨⟨_, hi.fifo.symm⟩, hi.fifo, hp, ?_⟩
  intro hlen
  obtain ⟨pc, hpc⟩ := List.length_eq_one.mp hlen
  obtain ⟨h1, h2⟩ := run_single h pc hpc
  have hd : (s.dequeued.map Prod.snd).filter nonNull <+: s.enqueued.filter nonNull :=
    List.IsPrefix.filter _ ⟨_, hi.fifo.symm⟩
  have hs : s.started.map Prod.snd <+: s.enqueued.filter nonNull :=
    List.IsPrefix.trans ⟨_, h1.symm⟩ hd
  have hf : s.finished.map (fun r => r.2.1) <+: s.enqueued.filter nonNull :=
    List.IsPrefix.trans ⟨_, h2.symm⟩ hs
  have hq : (s.enqueued.filter nonNull).map Entry.task <+:
      (submitted acts).filter Option.isSome := by
    rw [filter_nonNull_map]
    exact List.IsPrefix.filter _ hp
  refine ⟨hs, hf, ?_, ?_⟩
  · have := (hs.map Entry.task).trans hq
    simpa [List.map_map] using this
  · have := (hf.map Entry.task).trans hq
    simpa [List.map_map] using this

theorem dequeue_order_is_enqueue_order_witness :
    ∃ s, (create 0 1).run (addCall 0 (some 7) ++ addCall 0 none ++ addCall 0 (some 8) ++
        workCycle 0 true ++ skipCycle 0 ++ workCycle 0 false) = some s ∧
      s.m_threads.length = 1 ∧
      s.finished.map (fun r => r.2.1.task) <+:
        (submitted (addCall 0 (some 7) ++ addCall 0 none ++ addCall 0 (some 8) ++
          workCycle 0 true ++ skipCycle 0 ++ workCycle 0 false)).filter Option.isSome ∧
      s.finished.length = 2 := by
  have h : ((create 0 1).run (addCall 0 (some 7) ++ addCall 0 none ++ addCall 0 (some 8) ++
      workCycle 0 true ++ skipCycle 0 ++ workCycle 0 false)).isSome = true := by decide
  obtain ⟨s, hs⟩ := Option.isSome_iff_exists.mp h
  have h2 : ((create 0 1).run (addCall 0 (some 7) ++ addCall 0 none ++ addCall 0 (some 8) ++
      workCycle 0 true ++ skipCycle 0 ++ workCycle 0 false)).map
        (fun t => (t.m_threads.length, t.finished.length)) = some (1, 2) := by decide
  rw [hs] at h2
  have h3 := Option.some.inj h2
  simp only [Prod.mk.injEq] at h3
  exact ⟨s, hs, h3.1, ((dequeue_order_is_enqueue_order 0 1 _ s hs).2.2.2 h3.1).2.2.2, h3.2⟩

/-- C5, as the code has it: the constructor starts exactly `numThreads` workers when
`numThreads` is not zero and exactly as many as `hardware_concurrency()` reports when it
is zero, each at the head of its loop; so a pool made with `numThreads = 0` has a worker
exactly when the query reports at least one unit. -/
theorem create_worker_count (hw n : Nat) :
    (create hw n).m_threads = List.replicate (if n = 0 then hw else n) WorkerPC.loopHead ∧
    (create hw n).m_threads.length = (if n = 0 then hw else n) ∧
    (create hw 0).m_threads.length = hw ∧
    (create hw (n + 1)).m_threads.length = n + 1 ∧
    (1 ≤ (create hw 0).m_threads.length ↔ 1 ≤ hw) := by
  simp [create]

/-- C5 fails as stated: when `hardware_concurrency()` reports `0`, a pool constructed with
`numThreads = 0` has no worker at all, not `max 1 0 = 1`. -/
theorem create_zero_units_no_worker :
    (create 0 0).m_threads.length = 0 ∧
    ¬ (1 ≤ (create 0 0).m_threads.length) ∧
    (create 0 0).m_threads.length ≠ max 1 0 := by
  decide

theorem ownedRun_cons {s t : ThreadPool} {a : Action} {rest : List Action}
    (h : s.ownedRun (a :: rest) = some t) :
    ∃ m, s.owned a = true ∧ s.step a = some m ∧ m.ownedRun rest = some t := by
  simp only [ownedRun] at h
  split_ifs at h with ho
  cases hm : s.step a with
  | none => simp [hm] at h
  | some m => exact ⟨m, ho, rfl, by simpa [hm] using h⟩

theorem ownedRun_run : ∀ (acts : List Action) (s t : ThreadPool),
    s.ownedRun acts = some t → s.run acts = some t
  | [], s, t, h => by simpa [ownedRun, run] using h
  | a :: rest, s, t, h => by
    obtain ⟨m, _, hm, hr⟩ := ownedRun_cons h
    simp only [run, hm]
    exact ownedRun_run rest m t hr

theorem Inv.balance {s : ThreadPool} (hi : Inv s) :
    s.increments + s.uncounted = s.decrements + s.outstanding + s.discarded.length := by
  have h1 := hi.incs
  have h2 := hi.deqs
  have h3 := congrArg List.length hi.fifo
  simp only [List.length_append, List.length_map] at h3
  unfold outstanding
  omega

theorem uncounted_le_one (s : ThreadPool) : s.uncounted ≤ 1 := by
  unfold uncounted
  split <;> omega

theorem uncounted_of_noProducer {s : ThreadPool} (h : s.noProducer = true) :
    s.uncounted = 0 := by
  unfold noProducer at h
  unfold uncounted
  split at h <;> simp_all

theorem Inv.decrements_le {s : ThreadPool} (hi : Inv s) : s.decrements ≤ s.increments := by
  have h1 := hi.balance
  have h2 := hi.uncq
  have h3 := uncounted_le_one s
  unfold outstanding at h1
  omega

/-- The counter is the number of increments minus the number of decrements whenever that
number is below `2 ^ 31`. -/
theorem Inv.count_small {s : ThreadPool} (hi : Inv s)
    (h : s.increments < s.decrements + 2147483648) :
    s.m_pendingTasks = (s.increments : Int) - (s.decrements : Int) := by
  have h1 := hi.decrements_le
  rw [hi.count]
  exact wrapInt_of_small _ (by omega) (by omega)

/-- A step other than the beginning of an `AddTask` call, taken while no thread is inside
`AddTask`, leaves no thread inside `AddTask`, pushes nothing and does not raise the number
of entries that are queued, held or skipped; and if nothing is queued or held, it neither
starts, ends nor skips anything. -/
theorem Step.quiet {s t : ThreadPool} {a : Action} (h : Step s a t)
    (hn : s.noProducer = true) (ha : ∀ p task, a ≠ Action.addLock p task) :
    t.noProducer = true ∧ t.enqueued = s.enqueued ∧
    t.outstanding + t.discarded.length ≤ s.outstanding + s.discarded.length ∧
    (s.outstanding = 0 →
      t.started = s.started ∧ t.finished = s.finished ∧ t.discarded = s.discarded) := by
  cases h
  all_goals first
    | (exact absurd rfl (ha _ _))
    | (simp_all [noProducer]; done)
    | (simp_all [noProducer, outstanding, held, tally]; done)
    | (have g1 := le_sum_map WorkerPC.holds ‹s.m_threads[_]? = some _›
       simp only [outstanding, held, tally, setWorker]
       rw [sum_map_set_eq ‹s.m_threads[_]? = some _›]
       simp_all [noProducer, WorkerPC.holds, outstanding, held, tally]
       try omega)

theorem held_eq_zero_of_outstanding {s : ThreadPool} (h : s.outstanding = 0) :
    s.m_tasks = [] ∧ s.held = 0 := by
  unfold outstanding at h
  exact ⟨List.length_eq_zero.mp (by omega), by omega⟩

/-- When nothing is queued or held and nothing was skipped, every entry ever pushed has
finished exactly as often as it was pushed. -/
theorem Inv.all_finished {s : ThreadPool} (hi : Inv s)
    (h : s.outstanding + s.discarded.length = 0) :
    (s.finished.map (fun r => r.2.1)).Perm s.enqueued := by
  obtain ⟨hq, hh⟩ := held_eq_zero_of_outstanding (show s.outstanding = 0 by omega)
  have hd : s.discarded = [] := List.length_eq_zero.mp (by omega)
  rw [List.perm_iff_count]
  intro x
  have h1 := hi.taken x
  have h2 := hi.ran x
  have h3 := tally_le _ _ (hasTaken_le_holds x) s
  have h4 := tally_le _ _ (isRunning_le_holds x) s
  have h5 : s.enqueued.count x = (s.dequeued.map Prod.snd).count x := by
    rw [hi.fifo, hq, List.append_nil]
  rw [hd] at h1
  simp only [List.map_nil, List.count_nil] at h1
  unfold held at hh
  omega

theorem ownedRun_append (s : ThreadPool) (xs ys : List Action) :
    s.ownedRun (xs ++ ys) = (s.ownedRun xs).bind (fun t => t.ownedRun ys) := by
  induction xs generalizing s with
  | nil => simp [ownedRun]
  | cons a xs ih =>
    simp only [List.cons_append, ownedRun]
    split_ifs
    · cases h : s.step a with
      | none => simp
      | some t => simp [ih]
    · simp

/-- One complete call of `AddTask` by a client thread on a pool whose lock is free and
whose destructor has not been entered. -/
theorem ownedRun_addCall (s : ThreadPool) (p : Nat) (task : TaskPtr) (hm : s.m_mutex = none)
    (hd : s.dtor = DtorPC.alive) :
    s.ownedRun (addCall p task) = some { s with
      m_tasks := s.m_tasks ++ [Entry.mk s.enqueued.length task]
      enqueued := s.enqueued ++ [Entry.mk s.enqueued.length task]
      m_pendingTasks := wrapInt (s.m_pendingTasks + 1)
      increments := s.increments + 1
      peak := max s.peak (s.increments + 1 - s.decrements) } := by
  simp [addCall, addCallBy, ownedRun, owned, step, AddTask, canCall, hm, hd]

/-- The effect of `k` complete calls of `AddTask` with no other step in between. -/
theorem ownedRun_addCalls (p : Nat) (task : TaskPtr) :
    ∀ (k : Nat) (s : ThreadPool), s.m_mutex = none → s.dtor = DtorPC.alive →
      wrapInt s.m_pendingTasks = s.m_pendingTasks → s.increments ≤ s.decrements + s.peak →
      ∃ t, s.ownedRun (addCalls p task k) = some t ∧
        t.m_threads = s.m_threads ∧ t.m_mutex = none ∧ t.m_terminate = s.m_terminate ∧
        t.dtor = DtorPC.alive ∧ t.m_tasks.length = s.m_tasks.length + k ∧
        t.m_pendingTasks = wrapInt (s.m_pendingTasks + k) ∧
        t.started = s.started ∧ t.finished = s.finished ∧ t.discarded = s.discarded ∧
        t.increments = s.increments + k ∧ t.decrements = s.decrements ∧
        t.peak = max s.peak (s.increments + k - s.decrements)
  | 0, s, hm, hd, hr, hp => ⟨s, by simp [addCalls, ownedRun], rfl, hm, rfl, hd, by simp, by
      simpa using hr.symm, rfl, rfl, rfl, rfl, rfl, by
      show s.peak = max s.peak (s.increments + 0 - s.decrements); omega⟩
  | k + 1, s, hm, hd, hr, hp => by
    obtain ⟨t, h1, h2, h3, h4, h5, h6, h7, h8, h9, h10, h11, h12, h13⟩ :=
      ownedRun_addCalls p task k
      { s with
        m_tasks := s.m_tasks ++ [Entry.mk s.enqueued.length task]
        enqueued := s.enqueued ++ [Entry.mk s.enqueued.length task]
        m_pendingTasks := wrapInt (s.m_pendingTasks + 1)
        increments := s.increments + 1
        peak := max s.peak (s.increments + 1 - s.decrements) } hm hd
      (by show wrapInt (wrapInt _) = wrapInt _; unfold wrapInt; omega)
      (by show s.increments + 1 ≤ s.decrements + max s.peak (s.increments + 1 - s.decrements)
          omega)
    refine ⟨t, ?_, h2, h3, h4, h5, ?_, ?_, h8, h9, h10, ?_, h12, ?_⟩
    · rw [addCalls, ownedRun_append, ownedRun_addCall s p task hm hd]
      exact h1
    · rw [h6]; simp; omega
    · rw [h7]
      show wrapInt (wrapInt (s.m_pendingTasks + 1) + (k : Int)) =
        wrapInt (s.m_pendingTasks + ((k + 1 : Nat) : Int))
      rw [wrapInt_wrapInt_add]
      congr 1
      push_cast
      ring
    · rw [h11]
      show s.increments + 1 + k = s.increments + (k + 1)
      omega
    · rw [h13]
      show max (max s.peak (s.increments + 1 - s.decrements))
        (s.increments + 1 + k - s.decrements) =
        max s.peak (s.increments + (k + 1) - s.decrements)
      omega

/-- One round in which a client thread calls `AddTask` with a null pointer and the single
worker pops and skips it: the counter has gone up and nothing brings it down again. -/
theorem ownedRun_nullRound (s : ThreadPool) (p : Nat) (h1 : s.m_threads = [WorkerPC.loopHead])
    (h2 : s.m_mutex = none) (h3 : s.dtor = DtorPC.alive) (h4 : s.m_terminate = false)
    (h5 : s.m_tasks = []) :
    s.ownedRun (addCall p none ++ skipCycle 0) = some { s with
      enqueued := s.enqueued ++ [Entry.mk s.enqueued.length none]
      dequeued := s.dequeued ++ [(0, Entry.mk s.enqueued.length none)]
      discarded := s.discarded ++ [(0, Entry.mk s.enqueued.length none)]
      m_pendingTasks := wrapInt (s.m_pendingTasks + 1)
      increments := s.increments + 1
      peak := max s.peak (s.increments + 1 - s.decrements) } := by
  simp [skipCycle, addCall, addCallBy, ownedRun, owned, step, AddTask, ThreadProc,
    canCall, setWorker, h1, h2, h3, h4, h5]

/-- The effect of `k` such rounds. -/
theorem ownedRun_nullRounds (p : Nat) :
    ∀ (k : Nat) (s : ThreadPool), s.m_threads = [WorkerPC.loopHead] → s.m_mutex = none →
      s.dtor = DtorPC.alive → s.m_terminate = false → s.m_tasks = [] →
      wrapInt s.m_pendingTasks = s.m_pendingTasks → s.increments ≤ s.decrements + s.peak →
      ∃ t, s.ownedRun (nullRounds p 0 k) = some t ∧
        t.m_threads = [WorkerPC.loopHead] ∧ t.m_mutex = none ∧ t.dtor = DtorPC.alive ∧
        t.m_terminate = false ∧ t.m_tasks = [] ∧
        t.m_pendingTasks = wrapInt (s.m_pendingTasks + k) ∧
        t.started = s.started ∧ t.finished = s.finished ∧
        t.discarded.length = s.discarded.length + k ∧
        t.enqueued.length = s.enqueued.length + k ∧
        t.increments = s.increments + k ∧ t.decrements = s.decrements ∧
        t.peak = max s.peak (s.increments + k - s.decrements)
  | 0, s, h1, h2, h3, h4, h5, hr, hp => ⟨s, by simp [nullRounds, ownedRun], h1, h2, h3, h4, h5,
      by simpa using hr.symm, rfl, rfl, rfl, rfl, rfl, rfl, by
      show s.peak = max s.peak (s.increments + 0 - s.decrements); omega⟩
  | k + 1, s, h1, h2, h3, h4, h5, hr, hp => by
    obtain ⟨t, g0, g1, g2, g3, g4, g5, g6, g7, g8, g9, g10, g11, g12, g13⟩ :=
      ownedRun_nullRounds p k
      { s with
        enqueued := s.enqueued ++ [Entry.mk s.enqueued.length none]
        dequeued := s.dequeued ++ [(0, Entry.mk s.enqueued.length none)]
        discarded := s.discarded ++ [(0, Entry.mk s.enqueued.length none)]
        m_pendingTasks := wrapInt (s.m_pendingTasks + 1)
        increments := s.increments + 1
        peak := max s.peak (s.increments + 1 - s.decrements) } h1 h2 h3 h4 h5
      (by show wrapInt (wrapInt _) = wrapInt _; unfold wrapInt; omega)
      (by show s.increments + 1 ≤ s.decrements + max s.peak (s.increments + 1 - s.decrements)
          omega)
    refine ⟨t, ?_, g1, g2, g3, g4, g5, ?_, g7, g8, ?_, ?_, ?_, g12, ?_⟩
    · rw [nullRounds, ownedRun_append, ownedRun_nullRound s p h1 h2 h3 h4 h5]
      exact g0
    · rw [g6]
      show wrapInt (wrapInt (s.m_pendingTasks + 1) + (k : Int)) =
        wrapInt (s.m_pendingTasks + ((k + 1 : Nat) : Int))
      rw [wrapInt_wrapInt_add]
      congr 1
      push_cast
      ring
    · rw [g9]; simp; omega
    · rw [g10]; simp; omega
    · rw [g11]
      show s.increments + 1 + k = s.increments + (k + 1)
      omega
    · rw [g13]
      show max (max s.peak (s.increments + 1 - s.decrements))
        (s.increments + 1 + k - s.decrements) =
        max s.peak (s.increments + (k + 1) - s.decrements)
      omega

/-- The state after the first task has been taken by the worker and `k` more `AddTask`
calls have completed while that task is running. -/
theorem run_addCalls_busy (k : Nat) :
    ∃ t, (create 0 1).ownedRun (firstTaskRunning ++ addCalls 0 (some 7) k) = some t ∧
      (create 0 1).run (firstTaskRunning ++ addCalls 0 (some 7) k) = some t ∧
      t.m_threads = [WorkerPC.running (Entry.mk 0 (some 7))] ∧ t.m_mutex = none ∧
      t.m_terminate = false ∧ t.dtor = DtorPC.alive ∧ t.m_tasks.length = k ∧
      t.m_pendingTasks = wrapInt (1 + k) ∧ t.finished = [] ∧ t.discarded = [] ∧
      t.peak = 1 + k := by
  have h0 : ((create 0 1).ownedRun firstTaskRunning).isSome = true := by decide
  obtain ⟨s0, hs0⟩ := Option.isSome_iff_exists.mp h0
  have hf : ((create 0 1).ownedRun firstTaskRunning).map
      (fun u => (u.m_threads, u.m_mutex, u.m_terminate, u.dtor, u.m_tasks, u.m_pendingTasks,
        u.finished, u.discarded, u.increments, u.decrements, u.peak)) =
      some ([WorkerPC.running (Entry.mk 0 (some 7))], none, false, DtorPC.alive, [], 1, [],
        [], 1, 0, 1) := by
    rfl
  rw [hs0] at hf
  have hf2 := Option.some.inj hf
  simp only [Prod.mk.injEq] at hf2
  obtain ⟨f1, f2, f3, f4, f5, f6, f7, f8, f9, f10, f11⟩ := hf2
  obtain ⟨t, h1, h2, h3, h4, h5, h6, h7, h8, h9, h10, h11, h12, h13⟩ :=
    ownedRun_addCalls 0 (some 7) k s0 f2 f4 (by rw [f6]; decide) (by rw [f9, f10, f11])
  have hrun : (create 0 1).ownedRun (firstTaskRunning ++ addCalls 0 (some 7) k) = some t := by
    rw [ownedRun_append, hs0]
    exact h1
  refine ⟨t, hrun, ownedRun_run _ _ _ hrun, by rw [h2, f1], h3, by rw [h4, f3], h5, ?_, ?_,
    by rw [h9, f7], by rw [h10, f8], ?_⟩
  · rw [h6, f5]; simp
  · rw [h7, f6]
  · rw [h13, f9, f10, f11]
    omega

/-- The state after `k` null pointers were submitted and skipped: nothing is queued or
held, and the counter stands at the wrapped value of `k`. -/
theorem run_nullRounds_idle (k : Nat) :
    ∃ t, (create 0 1).run (nullRounds 0 0 k) = some t ∧
      t.m_threads = [WorkerPC.loopHead] ∧ t.m_mutex = none ∧ t.m_tasks = [] ∧
      t.m_pendingTasks = wrapInt k ∧ t.finished = [] ∧ t.discarded.length = k := by
  obtain ⟨u, g0, g1, g2, g3, g4, g5, g6, g7, g8, g9, g10, g11, g12, g13⟩ :=
    ownedRun_nullRounds 0 k (create 0 1) rfl rfl rfl rfl rfl (by decide) (by decide)
  refine ⟨u, ownedRun_run _ _ _ g0, g1, g2, g5, ?_, g8, ?_⟩
  · rw [g6]
    show wrapInt ((0 : Int) + (k : Int)) = wrapInt (k : Int)
    congr 1
    ring
  · rw [g9]
    show ([] : List (Nat × Entry)).length + k = k
    simp

theorem onlyProducer_addCalls (p : Nat) (task : TaskPtr) :
    ∀ k, onlyProducer p (addCalls p task k) = true
  | 0 => rfl
  | k + 1 => by
    rw [addCalls, onlyProducer_append, onlyProducer_addCalls p task k]
    simp [addCall, addCallBy, onlyProducer]

theorem submitted_addCalls (p : Nat) (task : TaskPtr) :
    ∀ k, (submitted (addCalls p task k)).length = k
  | 0 => rfl
  | k + 1 => by
    rw [addCalls, submitted_append, List.length_append, submitted_addCalls p task k]
    simp [addCall, addCallBy, submitted]
    omega

/-- C1 fails as stated for `N = 2 ^ 32`: while the worker is inside `Run` of the first
task, `2 ^ 32 - 1` further `AddTask` calls by the same thread complete; the `int` counter
has then wrapped around to `0`, so the `WaitForTasks` call of that thread returns although
the first task is still running and all the others are still queued. -/
theorem waitForTasks_returns_early :
    ∃ s, (create 0 1).run (firstTaskRunning ++ addCalls 0 (some 7) 4294967295 ++
        [Action.waitReturn 0]) = some s ∧
      onlyProducer 0 (firstTaskRunning ++ addCalls 0 (some 7) 4294967295) = true ∧
      (submitted (firstTaskRunning ++ addCalls 0 (some 7) 4294967295)).length = 4294967296 ∧
      s.m_threads = [WorkerPC.running (Entry.mk 0 (some 7))] ∧
      s.m_tasks.length = 4294967295 ∧ s.m_tasks ≠ [] ∧ s.finished = [] := by
  obtain ⟨t, _, h1, h2, h3, h4, h5, h6, h7, h9, _⟩ := run_addCalls_busy 4294967295
  have hp : t.m_pendingTasks = 0 := by
    rw [h7]; unfold wrapInt; norm_num
  refine ⟨t, ?_, ?_, ?_, h2, h6, ?_, h9⟩
  · rw [run_append, h1]
    simp [run, step, WaitForTasks, inAddTask, h3, hp]
  · rw [onlyProducer_append, onlyProducer_addCalls]
    decide
  · rw [submitted_append, List.length_append, submitted_addCalls]
    decide
  · intro h
    rw [h] at h6
    simp at h6

theorem run_invariant_noSubmission (P : ThreadPool → Prop)
    (hstep : ∀ s a t, P s → (∀ p task, a ≠ Action.addLock p task) → Step s a t → P t) :
    ∀ (acts : List Action) (s t : ThreadPool), noSubmission acts = true → P s →
      s.run acts = some t → P t
  | [], s, t, _, hs, h => by
    simp only [run] at h
    cases h
    exact hs
  | a :: rest, s, t, hn, hs, h => by
    obtain ⟨m, hm, hr⟩ := run_cons h
    have ha : (∀ p task, a ≠ Action.addLock p task) ∧ noSubmission rest = true := by
      cases a
      all_goals first
        | (simp only [noSubmission] at hn; exact absurd hn (by decide))
        | exact ⟨fun _ _ h => Action.noConfusion h, by simpa only [noSubmission] using hn⟩
    exact run_invariant_noSubmission P hstep rest m t ha.2
      (hstep s a m hs ha.1 (step_sound hm)) hr

theorem entriesFrom_of_seqs : ∀ (l : List Entry) (k : Nat),
    l.map Entry.seq = List.range' k l.length → l = entriesFrom k (l.map Entry.task)
  | [], _, _ => rfl
  | e :: l, k, h => by
    simp only [List.map_cons, List.length_cons, List.range'_succ, List.cons.injEq] at h
    have ih := entriesFrom_of_seqs l (k + 1) h.2
    simp only [List.map_cons, entriesFrom]
    rw [← ih, ← h.1]

theorem Inv.enqueued_eq {s : ThreadPool} (hi : Inv s) :
    s.enqueued = entriesFrom 0 (s.enqueued.map Entry.task) :=
  entriesFrom_of_seqs _ 0 (by rw [hi.seqs, List.range_eq_range'])

theorem noProducer_of_inAddTask {s : ThreadPool} {p : Nat}
    (hp : s.inAddTask (Caller.client p) = false)
    (h : ∀ q task pc, s.m_mutex = some (Owner.producer q task pc) → q = Caller.client p) :
    s.noProducer = true := by
  unfold noProducer
  split
  · rename_i q task pc hm
    have := h q task pc hm
    simp [inAddTask, hm, this] at hp
  · rfl

theorem lockedTask_of_noProducer {s : ThreadPool} (h : s.noProducer = true) :
    s.lockedTask = [] := by
  unfold noProducer at h
  unfold lockedTask
  split at h <;> simp_all

/-- C1, for fewer than `2 ^ 32` tasks: in every state reached after the `WaitForTasks` call
of the one thread that submits has returned, with no further submission since, the queue
is empty, no worker holds a task, the entries pushed are exactly the tasks of the `AddTask`
calls in call order, and the finished runs are a rearrangement of these entries, each there
once, so that their number is the number of tasks submitted. -/
theorem waitForTasks_returns_after_all_ran (hw n p : Nat) (acts1 acts2 : List Action)
    (s : ThreadPool)
    (h : (create hw n).run (acts1 ++ Action.waitReturn p :: acts2) = some s)
    (hone : onlyProducer p acts1 = true)
    (hno : noSubmission acts2 = true)
    (hN : (submitted acts1).length < 4294967296) :
    s.m_tasks = [] ∧
    (∀ (w : Nat) (pc : WorkerPC), s.m_threads[w]? = some pc → pc.holds = 0) ∧
    s.enqueued = entriesFrom 0 (submitted acts1) ∧
    (s.finished.map (fun r => r.2.1)).Perm (entriesFrom 0 (submitted acts1)) ∧
    s.finished.length = (submitted acts1).length := by
  rw [run_append] at h
  cases h1 : (create hw n).run acts1 with
  | none => simp [h1] at h
  | some s1 =>
    rw [h1, Option.some_bind] at h
    obtain ⟨m, hm, hr⟩ := run_cons h
    obtain ⟨hi1, ht1, hp1⟩ := run_traced h1
    have hst := step_sound hm
    cases hst with
    | waitReturn _ hp hc =>
      have hnp := noProducer_of_inAddTask hp (hp1 p hone)
      have hl := lockedTask_of_noProducer hnp
      rw [hl, List.append_nil] at ht1
      have hlen : s1.enqueued.length = (submitted acts1).length := by
        rw [← ht1, List.length_map]
      have hb := hi1.balance
      have hu := uncounted_of_noProducer hnp
      have hle := hi1.incs
      have hcnt := hi1.count
      have hdl := hi1.decrements_le
      rw [hc] at hcnt
      have hz := wrapInt_eq_zero ((s1.increments : Int) - (s1.decrements : Int))
        (by omega) (by omega) hcnt.symm
      have h0 : s1.outstanding + s1.discarded.length = 0 := by omega
      have hfin := run_invariant_noSubmission
        (fun u => Inv u ∧ u.noProducer = true ∧ u.outstanding + u.discarded.length = 0 ∧
          u.enqueued = s1.enqueued)
        (by
          intro u a v hu ha hstep
          obtain ⟨q1, q2, q3, _⟩ := hstep.quiet hu.2.1 ha
          exact ⟨hstep.inv hu.1, q1, by omega, by rw [q2, hu.2.2.2]⟩)
        acts2 s1 s hno ⟨hi1, hnp, h0, rfl⟩ hr
      obtain ⟨hi, _, hs0, hse⟩ := hfin
      have henq : s.enqueued = entriesFrom 0 (submitted acts1) := by
        have := hi.enqueued_eq
        rw [hse] at this ⊢
        rw [ht1] at this
        exact this
      have hperm := hi.all_finished hs0
      obtain ⟨hq, hh⟩ := held_eq_zero_of_outstanding (show s.outstanding = 0 by omega)
      refine ⟨hq, ?_, henq, henq ▸ hperm, ?_⟩
      · intro w pc hw
        have := le_sum_map WorkerPC.holds hw
        unfold held tally at hh
        omega
      · have := hperm.length_eq
        rw [List.length_map, hse, hlen] at this
        exact this

theorem waitForTasks_returns_after_all_ran_witness :
    ∃ s, (create 0 2).run (addCall 0 (some 7) ++ workCycle 1 true ++ addCall 0 (some 8) ++
        workCycle 0 false ++ Action.waitReturn 0 :: [Action.wLoop 1, Action.wLock 1,
          Action.wCheck 1, Action.wWake 1]) = some s ∧
      s.m_tasks = [] ∧ s.finished.length = 2 := by
  have h : ((create 0 2).run (addCall 0 (some 7) ++ workCycle 1 true ++ addCall 0 (some 8) ++
      workCycle 0 false ++ Action.waitReturn 0 :: [Action.wLoop 1, Action.wLock 1,
        Action.wCheck 1, Action.wWake 1])).isSome = true := by decide
  obtain ⟨s, hs⟩ := Option.isSome_iff_exists.mp h
  have hthm := waitForTasks_returns_after_all_ran 0 2 0
    (addCall 0 (some 7) ++ workCycle 1 true ++ addCall 0 (some 8) ++ workCycle 0 false)
    [Action.wLoop 1, Action.wLock 1, Action.wCheck 1, Action.wWake 1] s hs
    (by decide) (by decide) (by decide)
  exact ⟨s, hs, hthm.1, by rw [hthm.2.2.2.2]; decide⟩

theorem inRun_le_holds (pc : WorkerPC) : pc.inRun ≤ pc.holds := by
  cases pc <;> simp [WorkerPC.inRun, WorkerPC.holds]

/-- C9, as the code has it: `AddTask` pushes first and increments afterwards, both under the
lock.  In every reachable state the counter is the wrapped value of queue length plus
entries held by workers plus null pointers that workers popped and skipped (for which
there is no decrement) minus the one entry of an `AddTask` call that has pushed and not
yet incremented; with fewer than `2 ^ 31` entries queued, held or skipped the equation
holds without wrapping, so the counter is at least the queue length plus the number of
running tasks whenever no call is between its push and its increment, and (with fewer than
`2 ^ 32`) a reader sees `0` while an entry is queued only while a call is in that
window. -/
theorem counter_follows_push (hw n : Nat) (acts : List Action) (s : ThreadPool)
    (h : (create hw n).run acts = some s) :
    s.m_pendingTasks =
      wrapInt (((s.m_tasks.length + s.held + s.discarded.length : Nat) : Int) -
        (s.uncounted : Int)) ∧
    s.uncounted ≤ 1 ∧ s.uncounted ≤ s.m_tasks.length ∧
    (s.outstanding + s.discarded.length < 2147483648 →
      s.m_pendingTasks + (s.uncounted : Int) =
        ((s.m_tasks.length + s.held + s.discarded.length : Nat) : Int)) ∧
    (s.outstanding + s.discarded.length < 2147483648 → s.uncounted = 0 →
      ((s.m_tasks.length + s.tally WorkerPC.inRun : Nat) : Int) ≤ s.m_pendingTasks) ∧
    (s.outstanding + s.discarded.length < 4294967296 → s.m_pendingTasks = 0 →
      s.m_tasks ≠ [] → s.uncounted = 1) ∧
    (∀ (p : Caller) (task : TaskPtr), s.m_mutex = none → s.canCall p = true →
      s.run [Action.addLock p task, Action.addCount p] = none ∧
      ∃ t u, s.run [Action.addLock p task, Action.addPush p] = some t ∧
        t.step (Action.addCount p) = some u ∧
        t.m_tasks = s.m_tasks ++ [Entry.mk s.enqueued.length task] ∧
        t.m_pendingTasks = s.m_pendingTasks ∧
        u.m_tasks = t.m_tasks ∧
        u.m_pendingTasks = wrapInt (s.m_pendingTasks + 1)) := by
  have hi := run_inv h
  have hb := hi.balance
  have hu := uncounted_le_one s
  have hq := hi.uncq
  have hc := hi.count
  have hr := tally_le _ _ inRun_le_holds s
  have ho : s.outstanding = s.m_tasks.length + s.held := rfl
  have hd : (s.increments : Int) - (s.decrements : Int) =
      ((s.m_tasks.length + s.held + s.discarded.length : Nat) : Int) -
        (s.uncounted : Int) := by
    omega
  refine ⟨by rw [hc, hd], hu, hq, ?_, ?_, ?_, ?_⟩
  · intro hlt
    rw [hc, hd, wrapInt_of_small _ (by omega) (by omega)]
    omega
  · intro hlt h0
    rw [hc, hd, wrapInt_of_small _ (by omega) (by omega)]
    unfold held at hd ho ⊢
    omega
  · intro hlt h0 hne
    rw [hc, hd] at h0
    have hpos : 0 < s.m_tasks.length := List.length_pos.mpr hne
    by_contra hcon
    have hu0 : s.uncounted = 0 := by omega
    have := wrapInt_eq_zero _ (by omega) (by omega) h0
    omega
  · intro p task hm hcall
    refine ⟨by simp [run, step, AddTask, hm, hcall],
      { s with
        m_tasks := s.m_tasks ++ [Entry.mk s.enqueued.length task]
        enqueued := s.enqueued ++ [Entry.mk s.enqueued.length task]
        m_mutex := some (Owner.producer p task AddPC.pushed) },
      { s with
        m_tasks := s.m_tasks ++ [Entry.mk s.enqueued.length task]
        enqueued := s.enqueued ++ [Entry.mk s.enqueued.length task]
        m_pendingTasks := wrapInt (s.m_pendingTasks + 1)
        increments := s.increments + 1
        peak := max s.peak (s.increments + 1 - s.decrements)
        m_mutex := some (Owner.producer p task AddPC.counted) },
      by simp [run, step, AddTask, hm, hcall], by simp [step, AddTask], rfl, rfl, rfl, rfl⟩

theorem counter_follows_push_witness :
    ∃ s, (create 0 1).run (addCall 0 none ++ addCall 0 (some 7) ++ addCall 0 (some 8) ++
        skipCycle 0 ++ [Action.wLoop 0, Action.wLock 0, Action.wCheck 0, Action.wTake 0,
          Action.wUnlock 0]) = some s ∧
      s.outstanding + s.discarded.length < 2147483648 ∧
      s.m_pendingTasks + (s.uncounted : Int) =
        ((s.m_tasks.length + s.held + s.discarded.length : Nat) : Int) ∧
      s.m_pendingTasks = 3 := by
  have h : ((create 0 1).run (addCall 0 none ++ addCall 0 (some 7) ++ addCall 0 (some 8) ++
      skipCycle 0 ++ [Action.wLoop 0, Action.wLock 0, Action.wCheck 0, Action.wTake 0,
        Action.wUnlock 0])).isSome = true := by decide
  obtain ⟨s, hs⟩ := Option.isSome_iff_exists.mp h
  have h2 : ((create 0 1).run (addCall 0 none ++ addCall 0 (some 7) ++ addCall 0 (some 8) ++
      skipCycle 0 ++ [Action.wLoop 0, Action.wLock 0, Action.wCheck 0, Action.wTake 0,
        Action.wUnlock 0])).map
      (fun t => (t.outstanding + t.discarded.length, t.m_pendingTasks)) = some (3, 3) := by
    decide
  rw [hs] at h2
  have h3 := Option.some.inj h2
  simp only [Prod.mk.injEq] at h3
  have hK : s.outstanding + s.discarded.length < 2147483648 := by omega
  exact ⟨s, hs, hK, (counter_follows_push 0 1 _ s hs).2.2.2.1 hK, h3.2⟩

/-- C9 fails as stated: between the push and the increment of an `AddTask` call the queue
holds a task while the counter still reads `0`, and the `WaitForTasks` call of another
thread returns on reading it.  The `int` counter also falls below the queue length by
wrapping: with one task running and `2 ^ 31 - 1` queued it stands at `-2 ^ 31`, and with
one running and `2 ^ 32 - 1` queued it reads `0` although no call is between its push and
its increment; and after `2 ^ 31` null pointers were submitted and skipped, for which no
decrement is ever executed, it stands at `-2 ^ 31` with nothing queued or running. -/
theorem reader_sees_zero_with_task_queued :
    (∃ s, (create 0 1).run [Action.addLock (Caller.client 0) (some 7),
        Action.addPush (Caller.client 0), Action.waitReturn 1] = some s ∧
      s.m_pendingTasks = 0 ∧ s.m_tasks = [Entry.mk 0 (some 7)] ∧
      ¬ (((s.m_tasks.length + s.tally WorkerPC.inRun : Nat) : Int) ≤ s.m_pendingTasks)) ∧
    (∃ s, (create 0 1).run (firstTaskRunning ++ addCalls 0 (some 7) 2147483647) = some s ∧
      s.uncounted = 0 ∧ s.m_tasks.length = 2147483647 ∧ s.m_pendingTasks = -2147483648 ∧
      ¬ (((s.m_tasks.length + s.tally WorkerPC.inRun : Nat) : Int) ≤ s.m_pendingTasks)) ∧
    (∃ s, (create 0 1).run (firstTaskRunning ++ addCalls 0 (some 7) 4294967295) = some s ∧
      s.uncounted = 0 ∧ s.m_tasks.length = 4294967295 ∧ s.m_tasks ≠ [] ∧
      s.m_pendingTasks = 0) ∧
    (∃ s, (create 0 1).run (nullRounds 0 0 2147483648) = some s ∧
      s.uncounted = 0 ∧ s.m_tasks = [] ∧ s.discarded.length = 2147483648 ∧
      s.m_pendingTasks = -2147483648 ∧
      ¬ (((s.m_tasks.length + s.tally WorkerPC.inRun : Nat) : Int) ≤ s.m_pendingTasks)) := by
  refine ⟨⟨_, rfl, rfl, rfl, by decide⟩, ?_, ?_, ?_⟩
  · obtain ⟨t, _, h1, h2, h3, _, _, h6, h7, _⟩ := run_addCalls_busy 2147483647
    have hp : t.m_pendingTasks = -2147483648 := by
      rw [h7]; unfold wrapInt; norm_num
    refine ⟨t, h1, by simp [uncounted, h3], h6, hp, ?_⟩
    rw [hp]
    omega
  · obtain ⟨t, _, h1, h2, h3, _, _, h6, h7, _⟩ := run_addCalls_busy 4294967295
    have hp : t.m_pendingTasks = 0 := by
      rw [h7]; unfold wrapInt; norm_num
    refine ⟨t, h1, by simp [uncounted, h3], h6, ?_, hp⟩
    intro h
    rw [h] at h6
    simp at h6
  · obtain ⟨t, h1, h2, h3, h4, h5, _, h7⟩ := run_nullRounds_idle 2147483648
    have hp : t.m_pendingTasks = -2147483648 := by
      rw [h5]; unfold wrapInt; norm_num
    refine ⟨t, h1, by simp [uncounted, h3], h4, h7, hp, ?_⟩
    rw [hp, h4]
    simp [tally, h2, WorkerPC.inRun]

theorem completedSubmissions_of_noProducer {s : ThreadPool} (h : s.noProducer = true) :
    s.completedSubmissions = s.enqueued.length := by
  unfold noProducer at h
  unfold completedSubmissions
  split at h <;> simp_all

/-- C6, as the code has it: the counter is the wrapped difference of the increments and the
decrements executed; every push has had its increment except the push of a call that is
just before its increment, every ended `Run` has had its decrement except those of workers
that are just before their decrement; there are never more decrements than increments, and
the difference counts the entries that are queued or held by a worker and those that were
popped and skipped because their pointer is null; with fewer than `2 ^ 31` such entries
the counter is the difference itself and not negative, and it is the number of completed
`AddTask` calls minus the number of ended runs whenever no call is in progress and no
worker is just before its decrement. -/
theorem counter_is_increments_minus_decrements (hw n : Nat) (acts : List Action)
    (s : ThreadPool) (h : (create hw n).run acts = some s) :
    s.m_pendingTasks = wrapInt ((s.increments : Int) - (s.decrements : Int)) ∧
    s.increments + s.uncounted = s.enqueued.length ∧
    s.decrements + s.tally WorkerPC.isAfterRun = s.finished.length ∧
    s.decrements ≤ s.increments ∧
    s.increments + s.uncounted = s.decrements + s.outstanding + s.discarded.length ∧
    (s.outstanding + s.discarded.length < 2147483648 →
      s.m_pendingTasks = (s.increments : Int) - (s.decrements : Int) ∧
      0 ≤ s.m_pendingTasks) ∧
    (s.outstanding + s.discarded.length < 2147483648 → s.noProducer = true →
      s.tally WorkerPC.isAfterRun = 0 →
      s.m_pendingTasks = (s.completedSubmissions : Int) - (s.finished.length : Int)) := by
  have hi := run_inv h
  have hb := hi.balance
  have hq := hi.uncq
  have hc := hi.count
  have hle := hi.decrements_le
  refine ⟨hc, hi.incs, hi.decs, hle, hb, ?_, ?_⟩
  · intro hlt
    rw [hc, wrapInt_of_small _ (by omega) (by omega)]
    exact ⟨rfl, by omega⟩
  · intro hlt hn ha
    have h1 := completedSubmissions_of_noProducer hn
    have h2 := uncounted_of_noProducer hn
    have h3 := hi.incs
    have h4 := hi.decs
    rw [hc, wrapInt_of_small _ (by omega) (by omega)]
    omega

theorem counter_is_increments_minus_decrements_witness :
    ∃ s, (create 0 1).run (addCall 0 (some 7) ++ addCall 0 none ++ addCall 0 (some 8) ++
        workCycle 0 false ++ skipCycle 0) = some s ∧
      s.outstanding + s.discarded.length < 2147483648 ∧ s.m_pendingTasks = 2 ∧
      0 ≤ s.m_pendingTasks := by
  have h : ((create 0 1).run (addCall 0 (some 7) ++ addCall 0 none ++ addCall 0 (some 8) ++
      workCycle 0 false ++ skipCycle 0)).isSome = true := by decide
  obtain ⟨s, hs⟩ := Option.isSome_iff_exists.mp h
  have h2 : ((create 0 1).run (addCall 0 (some 7) ++ addCall 0 none ++ addCall 0 (some 8) ++
      workCycle 0 false ++ skipCycle 0)).map
      (fun t => (t.outstanding + t.discarded.length, t.m_pendingTasks)) = some (2, 2) := by
    decide
  rw [hs] at h2
  have h3 := Option.some.inj h2
  simp only [Prod.mk.injEq] at h3
  have hK : s.outstanding + s.discarded.length < 2147483648 := by omega
  exact ⟨s, hs, hK, h3.2,
    ((counter_is_increments_minus_decrements 0 1 _ s hs).2.2.2.2.2.1 hK).2⟩

/-- C6 fails as stated, in three ways: after a `Run` has ended and before its worker
decrements, the counter still counts the task, so it is not the completed submissions
minus the ended runs; when `2 ^ 31 - 1` further `AddTask` calls complete while the first
task is still running, the `int` counter has wrapped around to a negative value; and
after `2 ^ 31` null pointers were submitted and skipped, for which no decrement is ever
executed, the counter is negative although nothing is queued or held. -/
theorem counter_off_after_run_and_negative_on_wrap :
    (∃ s, (create 0 1).run (addCall 0 (some 7) ++ [Action.wLoop 0, Action.wLock 0,
        Action.wCheck 0, Action.wTake 0, Action.wUnlock 0, Action.wRun 0 true]) = some s ∧
      s.m_pendingTasks = 1 ∧ s.completedSubmissions = 1 ∧ s.finished.length = 1 ∧
      s.m_pendingTasks ≠ (s.completedSubmissions : Int) - (s.finished.length : Int)) ∧
    (∃ s, (create 0 1).run (firstTaskRunning ++ addCalls 0 (some 7) 2147483647) = some s ∧
      s.m_pendingTasks = -2147483648 ∧ s.m_pendingTasks < 0) ∧
    (∃ s, (create 0 1).run (nullRounds 0 0 2147483648) = some s ∧
      s.outstanding = 0 ∧ s.discarded.length = 2147483648 ∧
      s.m_pendingTasks = -2147483648 ∧ s.m_pendingTasks < 0) := by
  refine ⟨⟨_, rfl, rfl, rfl, rfl, by decide⟩, ?_, ?_⟩
  · obtain ⟨t, _, h1, _, _, _, _, _, h7, _⟩ := run_addCalls_busy 2147483647
    have hp : t.m_pendingTasks = -2147483648 := by
      rw [h7]; unfold wrapInt; norm_num
    exact ⟨t, h1, hp, by rw [hp]; norm_num⟩
  · obtain ⟨t, h1, h2, h3, h4, h5, _, h7⟩ := run_nullRounds_idle 2147483648
    have hp : t.m_pendingTasks = -2147483648 := by
      rw [h5]; unfold wrapInt; norm_num
    refine ⟨t, h1, ?_, h7, hp, by rw [hp]; norm_num⟩
    simp [outstanding, held, tally, h2, h4, WorkerPC.holds]

end ThreadPool

/-! ## Proofs about `Material::FillConstantBuffer` -/

namespace Material

/-- What `FillConstantBuffer` stores in `constants.alphaCutoff`, for every material and
every buffer: the material's cutoff for the two alpha-tested domains, `-1` for the opaque,
the transmissive and the two alpha-blended domains, and the old content otherwise. -/
theorem fillConstantBuffer_alphaCutoff (m : Material) (constants : MaterialConstants) :
    (m.FillConstantBuffer constants).alphaCutoff =
      match m.domain with
      | MaterialDomain.AlphaTested => m.alphaCutoff
      | MaterialDomain.TransmissiveAlphaTested => m.alphaCutoff
      | MaterialDomain.other => constants.alphaCutoff
      | _ => -1 := by
  cases m with
  | mk domain opacity alphaCutoff =>
    cases domain <;> rfl

/-- C10 at an alpha-blended material: the code stores `-1` in `constants.alphaCutoff`,
which is not the `0` that the comment on the case (discard only if opacity is `0`)
announces; the same happens for `TransmissiveAlphaBlended`. -/
theorem fillConstantBuffer_alphaBlended_cutoff :
    ((Material.mk MaterialDomain.AlphaBlended (1 / 2) (1 / 2)).FillConstantBuffer
        (MaterialConstants.mk 0 0)).alphaCutoff = -1 ∧
    ((Material.mk MaterialDomain.TransmissiveAlphaBlended (1 / 2) (1 / 2)).FillConstantBuffer
        (MaterialConstants.mk 0 0)).alphaCutoff = -1 ∧
    ((-1 : ℚ) ≠ 0) := by
  refine ⟨rfl, rfl, by decide⟩

end Material

end Donut
